import Mathlib

/-!
Verification of the `bdigest` quantile digest (`digest.go`).

Two shallow embeddings are used, at the two levels of abstraction the code
itself works at:

* `RDigest`: the in-memory digest with `float64` fields idealized as real
  numbers (`min`/`max` as `WithTop ℝ`/`WithBot ℝ` so the `math.Inf(±1)`
  sentinels of a fresh digest are representable, `uint64` counters as `ℕ`).
  This model carries the bucket-key / quantile mathematics
  (`bucketKey(x) = ⌈ln x / ln γ⌉`, `quantile(k) = 2γᵏ/(γ+1)`) exactly,
  with real `log`/`exp` in place of their floating-point approximations.

* `SDigest`: the serialized digest, with every `float64` field kept as its
  64-bit IEEE-754 bit pattern (Go's `math.Float64bits`/`Float64frombits`
  are mutually inverse bit casts, so this is lossless), together with a
  byte-exact model of `MarshalBinary`/`UnmarshalBinary`, including the
  32-bit arithmetic of the decoder's length check.  The IEEE-754
  comparisons the decoder's `relativeError` validation performs are decided
  exactly on the bit pattern by integer arithmetic.
-/

set_option maxHeartbeats 1000000
set_option maxRecDepth 8192

/-- Model of Go's `math.MaxFloat64` as an exact real number:
`(2^53 − 1) · 2^971`. -/
noncomputable def maxFloat64 : ℝ := (2 ^ 53 - 1) * 2 ^ 971

/-- Shallow embedding of the `Digest` struct from `digest.go`.  Go `float64`
fields are idealized as real numbers; `min`/`max` use `WithTop ℝ`/`WithBot ℝ`
so the `math.Inf(1)`/`math.Inf(-1)` initial sentinels are representable;
`uint64` counters are modelled as `ℕ` (no reachable state approaches 2^64). -/
structure RDigest where
  alpha : ℝ
  gamma : ℝ
  gammaLn : ℝ
  min : WithTop ℝ
  max : WithBot ℝ
  sum : ℝ
  c : ℝ
  neg : List ℕ
  pos : List ℕ
  numNeg : ℕ
  numPos : ℕ

/-- `NewDigest(err)`: the struct built on the success path (the panic guard
for `err` NaN or outside `(0,1)` is carried as hypotheses in the theorems).
`math.Log1p x` computes `log (1 + x)`; it is modelled as exactly that. -/
noncomputable def RDigest.NewDigest (err : ℝ) : RDigest :=
  { alpha := err
    gamma := 1 + 2 * err / (1 - err)
    gammaLn := Real.log (1 + 2 * err / (1 - err))
    min := ⊤
    max := ⊥
    sum := 0
    c := 0
    neg := []
    pos := []
    numNeg := 0
    numPos := 0 }

/-- `Size()` returns `len(d.neg) + len(d.pos)`. -/
def RDigest.Size (d : RDigest) : ℕ := d.neg.length + d.pos.length

/-- `Sum()` returns `d.sum`. -/
def RDigest.Sum (d : RDigest) : ℝ := d.sum

/-- `Count()` returns `d.numNeg + d.numPos`. -/
def RDigest.Count (d : RDigest) : ℕ := d.numNeg + d.numPos

/-- `addKahan(v)` from `digest.go`: one compensated-summation step. -/
def RDigest.addKahan (d : RDigest) (v : ℝ) : RDigest :=
  let y := v - d.c
  let t := d.sum + y
  { d with c := (t - d.sum) - y, sum := t }

/-- The bucket-key map `⌈log x / g⌉` as a function of the stored `gammaLn`. -/
noncomputable def keyOf (g : ℝ) (x : ℝ) : ℤ := ⌈Real.log x / g⌉

/-- `bucketKey(x) = int(math.Ceil(math.Log(x) / d.gammaLn))`. -/
noncomputable def RDigest.bucketKey (d : RDigest) (x : ℝ) : ℤ :=
  keyOf d.gammaLn x

/-- `quantile(k) = 2 * math.Exp(k * gammaLn) / (gamma + 1)`. -/
noncomputable def RDigest.quantile (d : RDigest) (k : ℤ) : ℝ :=
  2 * Real.exp ((k : ℝ) * d.gammaLn) / (d.gamma + 1)

/-- `grow(buckets, ix)`: append `ix + 1 − len` zero counters when positive. -/
def grow (buckets : List ℕ) (ix : ℤ) : List ℕ :=
  if ix + 1 - (buckets.length : ℤ) ≤ 0 then buckets
  else buckets ++ List.replicate (ix + 1 - (buckets.length : ℤ)).toNat 0

/-- `l[i]++` on a bucket array (the index is in range after `grow`). -/
def incAt (l : List ℕ) (i : ℕ) : List ℕ := l.set i (l.getD i 0 + 1)

/-- `Add(v)`: `none` models the panic on invalid input (the `math.IsNaN(v)`
disjunct has no counterpart, `ℝ` having no NaN); otherwise the updated
digest. -/
noncomputable def RDigest.Add (d : RDigest) (v : ℝ) : Option RDigest :=
  if v ≤ 0 ∨ maxFloat64 ≤ v then none
  else
    let d1 := { d with
      min := if (v : WithTop ℝ) < d.min then (v : WithTop ℝ) else d.min
      max := if (v : WithBot ℝ) > d.max then (v : WithBot ℝ) else d.max }
    let d2 := d1.addKahan v
    let k := d.bucketKey v
    some (if k < 1 then
      { d2 with neg := incAt (grow d2.neg (-k)) (-k).toNat, numNeg := d2.numNeg + 1 }
    else
      { d2 with pos := incAt (grow d2.pos (k - 1)) (k - 1).toNat, numPos := d2.numPos + 1 })

/-- Fold `Add` over a list of values (on a failed `Add` the digest is kept
unchanged; the theorems only use valid values, where `Add` succeeds). -/
noncomputable def RDigest.addList (d : RDigest) (xs : List ℝ) : RDigest :=
  xs.foldl (fun a x => (a.Add x).getD a) d

/-- The merge loop `d.neg = grow(d.neg, len(v.neg)-1); for i, n := range v.neg
\x7b d.neg[i] += n \x7d`: after growing, indices `0 .. len b − 1` receive `b`
pointwise and the tail of the grown array is kept. -/
def mergeCounts (a b : List ℕ) : List ℕ :=
  let g := grow a ((b.length : ℤ) - 1)
  List.zipWith (fun x y => x + y) g b ++ g.drop b.length

/-- `Merge(v)`: returns the updated receiver together with the error, if any.
On error the receiver is returned unchanged (the Go code returns before any
mutation); the argument `v` is never modified (the model is a pure function
of it). -/
noncomputable def RDigest.Merge (d v : RDigest) : RDigest × Option String :=
  if v.alpha ≠ d.alpha then
    (d, some "can not merge digest with different relative error")
  else
    let d1 := { d with
      min := if v.min < d.min then v.min else d.min
      max := if v.max > d.max then v.max else d.max }
    let d2 := d1.addKahan v.sum
    ({ d2 with
        neg := mergeCounts d2.neg v.neg
        pos := mergeCounts d2.pos v.pos
        numNeg := d2.numNeg + v.numNeg
        numPos := d2.numPos + v.numPos }, none)

/-- First index (if any) at which the running sum of `l` reaches `rank`:
the common core of `rankIndex` and `rankIndexRev`. -/
def firstIdxGE (rank : ℕ) : List ℕ → Option ℕ
  | [] => none
  | b :: t => if rank ≤ b then some 0 else (firstIdxGE (rank - b) t).map (fun i => i + 1)

/-- `rankIndex` from `digest.go`: first index whose running sum (from the
front) reaches `rank`, defaulting to `len − 1` when the loop falls through. -/
def rankIndex (rank : ℕ) (buckets : List ℕ) : ℕ :=
  (firstIdxGE rank buckets).getD (buckets.length - 1)

/-- `rankIndexRev` from `digest.go`: scanning `i = len−1` down to `0` and
accumulating is scanning the reversed list; position `j` of the reversal is
index `len − 1 − j`.  Defaults to `0` when the loop falls through. -/
def rankIndexRev (rank : ℕ) (buckets : List ℕ) : ℕ :=
  match firstIdxGE rank buckets.reverse with
  | none => 0
  | some j => buckets.length - 1 - j

/-- Extract the real value of the `min` field (`⊤` is the `+Inf` sentinel of
an empty digest, never returned by `Quantile` since `Count > 0` there). -/
def topToReal : WithTop ℝ → ℝ := fun x => x.untop' 0

/-- Extract the real value of the `max` field. -/
def botToReal : WithBot ℝ → ℝ := fun x => x.unbot' 0

/-- `Quantile(q)`.  `none` models both the panic (`q` outside `[0,1]`) and
the NaN returned for an empty digest; otherwise the returned `float64`. -/
noncomputable def RDigest.Quantile (d : RDigest) (q : ℝ) : Option ℝ :=
  if q < 0 ∨ 1 < q then none
  else if d.Count = 0 then none
  else if q = 0 then some (topToReal d.min)
  else if q = 1 then some (botToReal d.max)
  else
    let rank := ⌊1 + q * ((d.Count - 1 : ℕ) : ℝ)⌋₊
    if rank ≤ d.numNeg then some (d.quantile (-(rankIndexRev rank d.neg : ℤ)))
    else some (d.quantile ((rankIndex (rank - d.numNeg) d.pos : ℤ) + 1))

/-- Count of bucket entries at keys `≤ k`: negative-side key `−i` lives at
`neg[i]`, positive-side key `i+1` at `pos[i]`.  For `k < 0` that is the tail
`neg[−k..]`; for `k ≥ 0` all of `neg` plus the prefix `pos[0..k)`. -/
def cumCount (d : RDigest) (k : ℤ) : ℕ :=
  if k < 0 then (d.neg.drop (-k).toNat).sum
  else d.neg.sum + (d.pos.take k.toNat).sum

/-- Number of values in `xs` whose bucket key (w.r.t. log-gamma `g`) is `≤ k`. -/
noncomputable def countKeyLe (g : ℝ) (k : ℤ) : List ℝ → ℕ
  | [] => 0
  | x :: t => (if keyOf g x ≤ k then 1 else 0) + countKeyLe g k t

/-- Running minimum of a list of reals, from an initial `WithTop ℝ`
accumulator (the shape `Add` gives the `min` field). -/
noncomputable def minFold (a : WithTop ℝ) (xs : List ℝ) : WithTop ℝ :=
  xs.foldl (fun acc y => min acc (y : ℝ)) a

/-- Running maximum of a list of reals, from an initial `WithBot ℝ`
accumulator (the shape `Add` gives the `max` field). -/
noncomputable def maxFold (a : WithBot ℝ) (xs : List ℝ) : WithBot ℝ :=
  xs.foldl (fun acc y => max acc (y : ℝ)) a

/-- Number of values in `xs` whose bucket key (w.r.t. log-gamma `g`) is `≥ 1`
(the positive-side counterpart of `countKeyLe · 0`). -/
noncomputable def countKeyGt (g : ℝ) : List ℝ → ℕ
  | [] => 0
  | x :: t => (if 0 < keyOf g x then 1 else 0) + countKeyGt g t

/-- The added values in nondecreasing order (used to state what the true
`q`-quantile of the inputs is). -/
noncomputable def sortedOf (xs : List ℝ) : List ℝ :=
  Multiset.sort (fun a b => a ≤ b) (xs : Multiset ℝ)

/-- The true `q`-quantile of `xs` under the code's rank convention
(rank `⌊1 + q·(n−1)⌋`, 1-indexed, rank 1 = smallest element). -/
noncomputable def trueQuantile (q : ℝ) (xs : List ℝ) : ℝ :=
  (sortedOf xs).getD (⌊1 + q * ((xs.length - 1 : ℕ) : ℝ)⌋₊ - 1) 0

/-- A concrete digest state used by witnesses: a 1/2-error digest
(`γ = 1 + 2·(1/2)/(1/2) = 3`) that holds one value in bucket key 1. -/
noncomputable def dWitness : RDigest :=
  { alpha := 1 / 2
    gamma := 3
    gammaLn := Real.log 3
    min := ((2 : ℝ) : WithTop ℝ)
    max := ((2 : ℝ) : WithBot ℝ)
    sum := 2
    c := 0
    neg := []
    pos := [1]
    numNeg := 0
    numPos := 1 }

/-- Digest states reachable from `NewDigest` by successful `Add` and `Merge`
calls. -/
inductive Reachable : RDigest → Prop
  | new (err : ℝ) : 0 < err → err < 1 → Reachable (RDigest.NewDigest err)
  | add (d : RDigest) (v : ℝ) (d' : RDigest) :
      Reachable d → d.Add v = some d' → Reachable d'
  | merge (d v : RDigest) :
      Reachable d → Reachable v → (d.Merge v).2 = none → Reachable (d.Merge v).1

/-! ## The serialized digest and the binary codec -/

/-- `headerSize` from `digest.go` (64 bytes). -/
def headerSize : ℕ := 1 * 8 + 4 * 8 + 2 * 8 + 2 * 4

/-- The digest as the binary codec sees it: each `float64` field is kept as
its 64-bit IEEE-754 bit pattern (Go's `math.Float64bits`/`Float64frombits`
are mutually inverse bit casts, so this view is lossless), `uint64` fields
as `ℕ` (well-formedness hypotheses bound them by 2^64).  `gamma`/`gammaLn`
are not serialized: `UnmarshalBinary` recomputes them from `alpha` by the
same formulas as `NewDigest`, so equal `alpha` patterns give equal
`gamma`/`gammaLn`; they are therefore not part of this view. -/
structure SDigest where
  alpha : ℕ
  min : ℕ
  max : ℕ
  sum : ℕ
  c : ℕ
  neg : List ℕ
  pos : List ℕ
  numNeg : ℕ
  numPos : ℕ
  deriving DecidableEq

/-- Little-endian byte decomposition: `k` bytes of `n`. -/
def bytesLE : ℕ → ℕ → List ℕ
  | 0, _ => []
  | k + 1, n => n % 256 :: bytesLE k (n / 256)

/-- `binary.LittleEndian.PutUint64`. -/
def u64le (n : ℕ) : List ℕ := bytesLE 8 n

/-- `binary.LittleEndian.PutUint32`. -/
def u32le (n : ℕ) : List ℕ := bytesLE 4 n

/-- Read `k` little-endian bytes starting at offset `i`.  Each byte is a
`uint8` (`% 256`); an out-of-range read yields 0 here — the separate
`unmarshalInBounds` predicate records whether Go would instead panic. -/
def readLE (data : List ℕ) : ℕ → ℕ → ℕ
  | 0, _ => 0
  | k + 1, i => data.getD i 0 % 256 + 256 * readLE data k (i + 1)

/-- `binary.LittleEndian.Uint64(data[i:])`. -/
def readU64 (data : List ℕ) (i : ℕ) : ℕ := readLE data 8 i

/-- `binary.LittleEndian.Uint32(data[i:])`. -/
def readU32 (data : List ℕ) (i : ℕ) : ℕ := readLE data 4 i

/-- `MarshalBinary`: the 64-byte header then the two bucket arrays, all
little-endian.  `uint32(len(d.neg))` truncates mod 2^32, as in Go. -/
def SDigest.MarshalBinary (d : SDigest) : List ℕ :=
  u64le d.alpha ++ u64le d.min ++ u64le d.max ++ u64le d.sum ++ u64le d.c ++
    u64le d.numNeg ++ u64le d.numPos ++
    u32le (d.neg.length % 2 ^ 32) ++ u32le (d.pos.length % 2 ^ 32) ++
    (d.neg.map u64le).flatten ++ (d.pos.map u64le).flatten

/-- Exponent field of an IEEE-754 binary64 bit pattern. -/
def f64exp (b : ℕ) : ℕ := b / 2 ^ 52 % 2 ^ 11

/-- Mantissa field of an IEEE-754 binary64 bit pattern. -/
def f64mant (b : ℕ) : ℕ := b % 2 ^ 52

/-- Sign field of an IEEE-754 binary64 bit pattern. -/
def f64sign (b : ℕ) : ℕ := b / 2 ^ 63 % 2

/-- The decoder's validity test on the decoded `relativeError`:
`math.IsNaN(alpha) || alpha <= 0 || alpha >= 1`, decided exactly on the bit
pattern.  A binary64 value is `(−1)^sign · m · 2^(exp−1075)` with
`m = 2^52 + mant` when `exp ≥ 1`, and `mant · 2^(−1074)` when `exp = 0`.
Case analysis of Go's test: exponent 2047 is NaN (rejected) or ±Inf
(`+Inf ≥ 1`, `−Inf ≤ 0`: rejected); a set sign bit means the value is
negative or −0, so `≤ 0` (rejected); `+0` is `≤ 0` (rejected); a positive
subnormal lies in `(0, 2^(−1022))`, inside `(0,1)` (accepted); a positive
normal value is `> 0`, and is `≥ 1` exactly when `m · 2^exp ≥ 2^1075` —
an exact integer comparison. -/
def f64badAlpha (b : ℕ) : Bool :=
  if f64exp b = 2 ^ 11 - 1 then true
  else if f64sign b = 1 then true
  else if f64exp b = 0 ∧ f64mant b = 0 then true
  else if f64exp b = 0 then false
  else decide (2 ^ 1075 ≤ (2 ^ 52 + f64mant b) * 2 ^ f64exp b)

/-- The three validation steps of `UnmarshalBinary`, in order: header
length, `relativeError` domain, histogram length.  The last is computed in
`uint32` arithmetic exactly as in Go: `uint32(len(data[i:]))` truncates the
remaining length mod 2^32, and `(lenNeg+lenPos)*8` is a `uint32` product,
i.e. reduced mod 2^32.  Returns `(lenNeg, lenPos)` when all pass. -/
def unmarshalChecks (data : List ℕ) : Except String (ℕ × ℕ) :=
  if data.length < headerSize then .error "not enough data to read header"
  else if f64badAlpha (readU64 data 0) then .error "invalid relative error"
  else
    let lenNeg := readU32 data 56
    let lenPos := readU32 data 60
    if (data.length - headerSize) % 2 ^ 32 < (lenNeg + lenPos) * 8 % 2 ^ 32 then
      .error "not enough data to read histograms"
    else .ok (lenNeg, lenPos)

/-- `UnmarshalBinary`.  The Go method assigns `*d = Digest{...}` only after
every check has passed, and every error path returns before that single
write, so the result never depends on the prior target and the target is
untouched on error; the model therefore takes no target.  Out-of-range
byte reads yield 0 here; `unmarshalInBounds` tracks whether Go would
instead panic. -/
def UnmarshalBinary (data : List ℕ) : Except String SDigest :=
  match unmarshalChecks data with
  | .error e => .error e
  | .ok (lenNeg, lenPos) =>
      .ok
        { alpha := readU64 data 0
          min := readU64 data 8
          max := readU64 data 16
          sum := readU64 data 24
          c := readU64 data 32
          neg := (List.range lenNeg).map fun j => readU64 data (headerSize + 8 * j)
          pos := (List.range lenPos).map fun j =>
            readU64 data (headerSize + 8 * lenNeg + 8 * j)
          numNeg := readU64 data 40
          numPos := readU64 data 48 }

/-- Every byte read performed by `UnmarshalBinary` is within the buffer:
the header reads are guarded by the first length check, and the histogram
loops additionally need `headerSize + 8·(lenNeg+lenPos) ≤ len(data)`. -/
def unmarshalInBounds (data : List ℕ) : Prop :=
  ∀ lenNeg lenPos, unmarshalChecks data = .ok (lenNeg, lenPos) →
    headerSize + 8 * (lenNeg + lenPos) ≤ data.length

/-- Bit pattern of the `float64` value `0.5` — a valid relative error. -/
def halfBits : ℕ := 0x3FE0000000000000

/-- A 64-byte buffer: valid `alpha` (0.5), `numNeg = 5`, every other header
field zero, `lenNeg = lenPos = 0`, no histogram bytes. -/
def bufBadCount : List ℕ :=
  u64le halfBits ++ u64le 0 ++ u64le 0 ++ u64le 0 ++ u64le 0 ++
    u64le 5 ++ u64le 0 ++ u32le 0 ++ u32le 0

/-- A 64-byte buffer whose `lenNeg` field is 2^29: `(lenNeg+lenPos)*8`
overflows `uint32` to 0, so the decoder's length check passes although the
buffer holds no histogram bytes at all. -/
def bufOverflow : List ℕ :=
  u64le halfBits ++ u64le 0 ++ u64le 0 ++ u64le 0 ++ u64le 0 ++
    u64le 0 ++ u64le 0 ++ u32le (2 ^ 29) ++ u32le 0

/-- A 72-byte buffer: valid header with `lenNeg = lenPos = 0`, followed by
8 trailing junk bytes that no field accounts for. -/
def bufExtra : List ℕ :=
  u64le halfBits ++ u64le 0 ++ u64le 0 ++ u64le 0 ++ u64le 0 ++
    u64le 0 ++ u64le 0 ++ u32le 0 ++ u32le 0 ++ u64le 7

/-- A concrete serialized digest used by witnesses: `alpha` bits of `0.5`,
one bucket holding 3 values. -/
def sWitness : SDigest :=
  { alpha := halfBits
    min := 0
    max := 0
    sum := 0
    c := 0
    neg := []
    pos := [3]
    numNeg := 0
    numPos := 3 }

/-- Well-formedness of a serialized-view digest: every scalar field fits in
64 bits, array lengths fit in 32 bits (Go slices of `uint64` of length
≥ 2^32 would need ≥ 32 GiB), and every counter fits in 64 bits. -/
def SDigest.WF (d : SDigest) : Prop :=
  d.alpha < 2 ^ 64 ∧ d.min < 2 ^ 64 ∧ d.max < 2 ^ 64 ∧ d.sum < 2 ^ 64 ∧
    d.c < 2 ^ 64 ∧ d.numNeg < 2 ^ 64 ∧ d.numPos < 2 ^ 64 ∧
    d.neg.length < 2 ^ 32 ∧ d.pos.length < 2 ^ 32 ∧
    (∀ b ∈ d.neg, b < 2 ^ 64) ∧ (∀ b ∈ d.pos, b < 2 ^ 64)

/-- Per-key view of the split bucket arrays: key `k ≤ 0` lives at `neg[−k]`,
key `k ≥ 1` at `pos[k−1]` (out-of-range buckets count 0). -/
def keyCount (d : RDigest) (k : ℤ) : ℕ :=
  if k < 1 then d.neg.getD (-k).toNat 0 else d.pos.getD (k - 1).toNat 0

/-! ## Helper lemmas on the bucket arrays -/

theorem getD_replicate_zero (n i : ℕ) : (List.replicate n (0 : ℕ)).getD i 0 = 0 := by
  rcases Nat.lt_or_ge i n with h | h
  · rw [List.getD_eq_getElem _ _ (by simpa using h)]
    simp
  · exact List.getD_eq_default _ _ (by simpa using h)

theorem getD_append_zero (a : List ℕ) (n i : ℕ) :
    (a ++ List.replicate n 0).getD i 0 = a.getD i 0 := by
  rcases Nat.lt_or_ge i a.length with h | h
  · exact List.getD_append _ _ _ _ h
  · rw [List.getD_append_right _ _ _ _ h, List.getD_eq_default _ _ h,
      getD_replicate_zero]

theorem grow_getD (l : List ℕ) (ix : ℤ) (i : ℕ) :
    (grow l ix).getD i 0 = l.getD i 0 := by
  unfold grow
  split
  · rfl
  · exact getD_append_zero _ _ _

theorem grow_index_lt (l : List ℕ) (ix : ℤ) (h : 0 ≤ ix) :
    ix.toNat < (grow l ix).length := by
  unfold grow
  split
  · omega
  · simp only [List.length_append, List.length_replicate]
    omega

theorem grow_sum (l : List ℕ) (ix : ℤ) : (grow l ix).sum = l.sum := by
  unfold grow
  split
  · rfl
  · simp [List.sum_append, List.sum_replicate]

theorem sum_drop_replicate (n m : ℕ) :
    ((List.replicate n (0 : ℕ)).drop m).sum = 0 := by
  refine List.sum_eq_zero fun x hx => ?_
  have := List.mem_of_mem_drop hx
  exact (List.eq_of_mem_replicate this)

theorem sum_take_replicate (n m : ℕ) :
    ((List.replicate n (0 : ℕ)).take m).sum = 0 := by
  refine List.sum_eq_zero fun x hx => ?_
  have := List.mem_of_mem_take hx
  exact (List.eq_of_mem_replicate this)

theorem sum_drop_append_replicate (l : List ℕ) (n m : ℕ) :
    ((l ++ List.replicate n 0).drop m).sum = (l.drop m).sum := by
  induction l generalizing m with
  | nil =>
    simp only [List.nil_append, List.drop_nil, List.sum_nil]
    exact sum_drop_replicate n m
  | cons a t ih =>
    cases m with
    | zero =>
      have := ih 0
      simp only [List.drop_zero] at this ⊢
      simp [List.sum_cons, this]
    | succ m => simpa using ih m

theorem sum_take_append_replicate (l : List ℕ) (n m : ℕ) :
    ((l ++ List.replicate n 0).take m).sum = (l.take m).sum := by
  induction l generalizing m with
  | nil =>
    simp only [List.nil_append, List.take_nil, List.sum_nil]
    exact sum_take_replicate n m
  | cons a t ih =>
    cases m with
    | zero => simp
    | succ m => simp [List.take_succ_cons, ih m]

theorem grow_drop_sum (l : List ℕ) (ix : ℤ) (m : ℕ) :
    ((grow l ix).drop m).sum = (l.drop m).sum := by
  unfold grow
  split
  · rfl
  · exact sum_drop_append_replicate _ _ _

theorem grow_take_sum (l : List ℕ) (ix : ℤ) (m : ℕ) :
    ((grow l ix).take m).sum = (l.take m).sum := by
  unfold grow
  split
  · rfl
  · exact sum_take_append_replicate _ _ _

theorem incAt_length (l : List ℕ) (i : ℕ) : (incAt l i).length = l.length := by
  simp [incAt]

theorem incAt_getD (l : List ℕ) (i j : ℕ) (h : i < l.length) :
    (incAt l i).getD j 0 = l.getD j 0 + if j = i then 1 else 0 := by
  rcases Nat.lt_or_ge j l.length with hj | hj
  · rw [incAt, List.getD_eq_getElem _ _ (by simpa using hj),
      List.getD_eq_getElem _ _ hj]
    rw [List.getElem_set]
    split
    · simp_all [List.getD_eq_getElem _ _ h]
    · simp_all [eq_comm]
  · rw [List.getD_eq_default _ _ (by simpa [incAt] using hj),
      List.getD_eq_default _ _ hj]
    have : ¬ (j = i) := by omega
    simp [this]

theorem incAt_drop_sum (l : List ℕ) (i m : ℕ) (h : i < l.length) :
    ((incAt l i).drop m).sum = (l.drop m).sum + if m ≤ i then 1 else 0 := by
  induction l generalizing i m with
  | nil => simp at h
  | cons a t ih =>
    cases i with
    | zero =>
      cases m with
      | zero =>
        simp [incAt]
        omega
      | succ m => simp [incAt]
    | succ i =>
      have hi : i < t.length := by simpa using h
      cases m with
      | zero =>
        have := ih i 0 hi
        simp only [List.drop_zero] at this ⊢
        simp [incAt, List.sum_cons] at this ⊢
        omega
      | succ m =>
        have := ih i m hi
        have h2 : (if m + 1 ≤ i + 1 then (1 : ℕ) else 0) =
            (if m ≤ i then 1 else 0) := by simp
        simp only [incAt, List.set_cons_succ, List.drop_succ_cons,
          List.getD_cons_succ] at this ⊢
        omega

theorem incAt_take_sum (l : List ℕ) (i m : ℕ) (h : i < l.length) :
    ((incAt l i).take m).sum = (l.take m).sum + if i < m then 1 else 0 := by
  induction l generalizing i m with
  | nil => simp at h
  | cons a t ih =>
    cases i with
    | zero =>
      cases m with
      | zero => simp [incAt]
      | succ m =>
        simp [incAt, List.take_succ_cons, List.sum_cons]
        omega
    | succ i =>
      have hi : i < t.length := by simpa using h
      cases m with
      | zero => simp [incAt]
      | succ m =>
        have := ih i m hi
        have h2 : (if i + 1 < m + 1 then (1 : ℕ) else 0) =
            (if i < m then 1 else 0) := by simp
        simp only [incAt, List.set_cons_succ, List.take_succ_cons,
          List.sum_cons, List.getD_cons_succ] at this ⊢
        omega

theorem incAt_sum (l : List ℕ) (i : ℕ) (h : i < l.length) :
    (incAt l i).sum = l.sum + 1 := by
  have := incAt_drop_sum l i 0 h
  simpa using this

/-! ## Characterization of `Add` -/

theorem add_none_iff (d : RDigest) (v : ℝ) :
    d.Add v = none ↔ v ≤ 0 ∨ maxFloat64 ≤ v := by
  by_cases h : v ≤ 0 ∨ maxFloat64 ≤ v <;> simp [RDigest.Add, h]

theorem add_eq_some (d : RDigest) (v : ℝ) (h0 : 0 < v) (h1 : v < maxFloat64) :
    ∃ d', d.Add v = some d' ∧
      d'.alpha = d.alpha ∧ d'.gamma = d.gamma ∧ d'.gammaLn = d.gammaLn ∧
      d'.min = (if (v : WithTop ℝ) < d.min then (v : WithTop ℝ) else d.min) ∧
      d'.max = (if (v : WithBot ℝ) > d.max then (v : WithBot ℝ) else d.max) ∧
      d'.sum = d.sum + (v - d.c) ∧
      d'.c = (d.sum + (v - d.c) - d.sum) - (v - d.c) ∧
      (∀ k : ℤ, keyCount d' k = keyCount d k +
        if k = d.bucketKey v then 1 else 0) ∧
      (∀ k : ℤ, cumCount d' k = cumCount d k +
        if d.bucketKey v ≤ k then 1 else 0) ∧
      d'.neg.sum = d.neg.sum + (if d.bucketKey v < 1 then 1 else 0) ∧
      d'.pos.sum = d.pos.sum + (if d.bucketKey v < 1 then 0 else 1) ∧
      d'.numNeg = d.numNeg + (if d.bucketKey v < 1 then 1 else 0) ∧
      d'.numPos = d.numPos + (if d.bucketKey v < 1 then 0 else 1) := by
  have hguard : ¬ (v ≤ 0 ∨ maxFloat64 ≤ v) := by push_neg; exact ⟨h0, h1⟩
  simp only [RDigest.Add, RDigest.addKahan, if_neg hguard]
  set κ := d.bucketKey v with hκ
  by_cases hk : κ < 1
  · rw [if_pos hk]
    refine ⟨_, rfl, rfl, rfl, rfl, rfl, rfl, rfl, rfl, ?_, ?_, ?_, ?_, ?_, ?_⟩
    · intro k
      by_cases hkk : k < 1
      · simp only [keyCount, if_pos hkk]
        rw [incAt_getD _ _ _ (grow_index_lt _ _ (by omega)), grow_getD]
        by_cases he : k = κ
        · rw [if_pos (by omega : (-k).toNat = (-κ).toNat), if_pos he]
        · rw [if_neg (by omega : ¬ ((-k).toNat = (-κ).toNat)), if_neg he]
      · have he : ¬ (k = κ) := by omega
        simp [keyCount, if_neg hkk, he]
    · intro k
      by_cases hkk : k < 0
      · simp only [cumCount, if_pos hkk]
        rw [incAt_drop_sum _ _ _ (grow_index_lt _ _ (by omega)), grow_drop_sum]
        by_cases he : κ ≤ k
        · rw [if_pos (by omega : (-k).toNat ≤ (-κ).toNat), if_pos he]
        · rw [if_neg (by omega : ¬ ((-k).toNat ≤ (-κ).toNat)), if_neg he]
      · have he : κ ≤ k := by omega
        simp only [cumCount, if_neg hkk]
        rw [incAt_sum _ _ (grow_index_lt _ _ (by omega)), grow_sum, if_pos he]
        omega
    · rw [incAt_sum _ _ (grow_index_lt _ _ (by omega)), grow_sum]
      simp [hk]
    · simp [hk]
    · simp [hk]
    · simp [hk]
  · rw [if_neg hk]
    refine ⟨_, rfl, rfl, rfl, rfl, rfl, rfl, rfl, rfl, ?_, ?_, ?_, ?_, ?_, ?_⟩
    · intro k
      by_cases hkk : k < 1
      · have he : ¬ (k = κ) := by omega
        simp [keyCount, if_pos hkk, he]
      · simp only [keyCount, if_neg hkk]
        rw [incAt_getD _ _ _ (grow_index_lt _ _ (by omega)), grow_getD]
        by_cases he : k = κ
        · rw [if_pos (by omega : (k - 1).toNat = (κ - 1).toNat), if_pos he]
        · rw [if_neg (by omega : ¬ ((k - 1).toNat = (κ - 1).toNat)), if_neg he]
    · intro k
      by_cases hkk : k < 0
      · have he : ¬ (κ ≤ k) := by omega
        simp [cumCount, if_pos hkk, he]
      · simp only [cumCount, if_neg hkk]
        rw [incAt_take_sum _ _ _ (grow_index_lt _ _ (by omega)), grow_take_sum]
        by_cases he : κ ≤ k
        · rw [if_pos (by omega : (κ - 1).toNat < k.toNat), if_pos he]
          omega
        · rw [if_neg (by omega : ¬ ((κ - 1).toNat < k.toNat)), if_neg he]
          omega
    · simp [hk]
    · rw [incAt_sum _ _ (grow_index_lt _ _ (by omega)), grow_sum]
      simp [hk]
    · simp [hk]
    · simp [hk]

/-! ## Characterization of `Merge` -/

theorem getD_drop (l : List ℕ) (m j : ℕ) :
    (l.drop m).getD j 0 = l.getD (m + j) 0 := by
  induction l generalizing m with
  | nil => simp
  | cons a t ih =>
    cases m with
    | zero => simp
    | succ m =>
      rw [List.drop_succ_cons, ih m]
      have : m + 1 + j = (m + j) + 1 := by omega
      rw [this, List.getD_cons_succ]

theorem zipWith_add_sum (g b : List ℕ) (h : b.length ≤ g.length) :
    (List.zipWith (fun x y => x + y) g b).sum = (g.take b.length).sum + b.sum := by
  induction b generalizing g with
  | nil => simp
  | cons x bs ih =>
    cases g with
    | nil => simp at h
    | cons y gs =>
      have h2 : bs.length ≤ gs.length := by simpa using h
      simp only [List.zipWith_cons_cons, List.sum_cons, List.length_cons,
        List.take_succ_cons, ih gs h2]
      omega

theorem zipWith_add_getD (g b : List ℕ) (i : ℕ) (hi : i < b.length)
    (h : b.length ≤ g.length) :
    (List.zipWith (fun x y => x + y) g b).getD i 0 = g.getD i 0 + b.getD i 0 := by
  induction b generalizing g i with
  | nil => simp at hi
  | cons x bs ih =>
    cases g with
    | nil => simp at h
    | cons y gs =>
      cases i with
      | zero => simp
      | succ i =>
        have h2 : bs.length ≤ gs.length := by simpa using h
        have hi2 : i < bs.length := by simpa using hi
        simp only [List.zipWith_cons_cons, List.getD_cons_succ]
        exact ih gs i hi2 h2

theorem grow_length_eq (a : List ℕ) (b : ℕ) :
    (grow a ((b : ℤ) - 1)).length = max a.length b := by
  unfold grow
  split
  · rename_i h
    rw [max_eq_left (by omega : b ≤ a.length)]
  · rename_i h
    simp only [List.length_append, List.length_replicate]
    rw [max_eq_right (by omega : a.length ≤ b)]
    omega

theorem mergeCounts_length (a b : List ℕ) :
    (mergeCounts a b).length = max a.length b.length := by
  have hbM : b.length ≤ max a.length b.length := le_max_right _ _
  simp only [mergeCounts]
  rw [List.length_append, List.length_zipWith, List.length_drop, grow_length_eq,
    min_eq_right hbM]
  omega

theorem mergeCounts_getD (a b : List ℕ) (i : ℕ) :
    (mergeCounts a b).getD i 0 = a.getD i 0 + b.getD i 0 := by
  have hg : b.length ≤ (grow a ((b.length : ℤ) - 1)).length := by
    rw [grow_length_eq]
    exact le_max_right _ _
  have hz : (List.zipWith (fun x y => x + y)
      (grow a ((b.length : ℤ) - 1)) b).length = b.length := by
    rw [List.length_zipWith]
    exact min_eq_right hg
  simp only [mergeCounts]
  rcases Nat.lt_or_ge i b.length with hi | hi
  · rw [List.getD_append _ _ _ _ (by omega), zipWith_add_getD _ _ _ hi hg,
      grow_getD]
  · rw [List.getD_append_right _ _ _ _ (by omega), hz, getD_drop, grow_getD,
      List.getD_eq_default b _ hi]
    have h3 : b.length + (i - b.length) = i := by omega
    rw [h3]
    omega

theorem mergeCounts_sum (a b : List ℕ) :
    (mergeCounts a b).sum = a.sum + b.sum := by
  have hg : b.length ≤ (grow a ((b.length : ℤ) - 1)).length := by
    rw [grow_length_eq]
    exact le_max_right _ _
  simp only [mergeCounts]
  rw [List.sum_append, zipWith_add_sum _ _ hg]
  have h4 : ((grow a ((b.length : ℤ) - 1)).take b.length).sum +
      ((grow a ((b.length : ℤ) - 1)).drop b.length).sum =
      (grow a ((b.length : ℤ) - 1)).sum := by
    rw [← List.sum_append, List.take_append_drop]
  rw [grow_sum] at h4
  omega

theorem merge_ok (d v : RDigest) (h : v.alpha = d.alpha) :
    (d.Merge v).2 = none ∧
      (d.Merge v).1.alpha = d.alpha ∧ (d.Merge v).1.gamma = d.gamma ∧
      (d.Merge v).1.gammaLn = d.gammaLn ∧
      (d.Merge v).1.min = min d.min v.min ∧
      (d.Merge v).1.max = max d.max v.max ∧
      (d.Merge v).1.sum = d.sum + (v.sum - d.c) ∧
      (d.Merge v).1.c = (d.sum + (v.sum - d.c) - d.sum) - (v.sum - d.c) ∧
      (d.Merge v).1.neg.length = max d.neg.length v.neg.length ∧
      (d.Merge v).1.pos.length = max d.pos.length v.pos.length ∧
      (∀ i, (d.Merge v).1.neg.getD i 0 = d.neg.getD i 0 + v.neg.getD i 0) ∧
      (∀ i, (d.Merge v).1.pos.getD i 0 = d.pos.getD i 0 + v.pos.getD i 0) ∧
      (d.Merge v).1.neg.sum = d.neg.sum + v.neg.sum ∧
      (d.Merge v).1.pos.sum = d.pos.sum + v.pos.sum ∧
      (d.Merge v).1.numNeg = d.numNeg + v.numNeg ∧
      (d.Merge v).1.numPos = d.numPos + v.numPos := by
  have hne : ¬ (v.alpha ≠ d.alpha) := by simpa using h
  refine ⟨?_, ?_, ?_, ?_, ?_, ?_, ?_, ?_, ?_, ?_, ?_, ?_, ?_, ?_, ?_, ?_⟩ <;>
    simp only [RDigest.Merge, RDigest.addKahan, if_neg hne]
  · rcases lt_or_ge v.min d.min with hc | hc
    · rw [if_pos hc, min_eq_right (le_of_lt hc)]
    · rw [if_neg (not_lt.mpr hc), min_eq_left hc]
  · rcases lt_or_ge d.max v.max with hc | hc
    · rw [if_pos hc, max_eq_right (le_of_lt hc)]
    · rw [if_neg (not_lt.mpr hc), max_eq_left hc]
  · exact mergeCounts_length _ _
  · exact mergeCounts_length _ _
  · exact fun i => mergeCounts_getD _ _ i
  · exact fun i => mergeCounts_getD _ _ i
  · exact mergeCounts_sum _ _
  · exact mergeCounts_sum _ _

theorem merge_error (d v : RDigest) (h : v.alpha ≠ d.alpha) :
    (d.Merge v).1 = d ∧ (d.Merge v).2 ≠ none := by
  simp [RDigest.Merge, if_pos h, h]

/-! ## Characterization of the rank scans -/

theorem drop_sum_le (l : List ℕ) (m : ℕ) : (l.drop m).sum ≤ l.sum := by
  have h2 : (l.take m).sum + (l.drop m).sum = l.sum := by
    rw [← List.sum_append, List.take_append_drop]
  omega

theorem reverse_drop_sum (l : List ℕ) (m : ℕ) :
    (l.reverse.drop m).sum = (l.take (l.length - m)).sum := by
  induction l generalizing m with
  | nil => simp
  | cons a t ih =>
    simp only [List.reverse_cons]
    rcases Nat.le_total m t.length with hm | hm
    · rw [List.drop_append_of_le_length (by simpa using hm), List.sum_append,
        ih m]
      have h1 : (a :: t).length - m = (t.length - m) + 1 := by
        simp only [List.length_cons]
        omega
      rw [h1, List.take_succ_cons, List.sum_cons]
      simp
      omega
    · rcases Nat.exists_eq_add_of_le hm with ⟨w, hw⟩
      subst hw
      have hd : (t.reverse ++ [a]).drop (t.length + w) = [a].drop w := by
        have hlen : t.length = t.reverse.length := by simp
        rw [hlen, List.drop_append]
      rw [hd]
      cases w with
      | zero =>
        simp only [Nat.add_zero, List.drop_zero, List.length_cons]
        have h5 : t.length + 1 - t.length = 1 := by omega
        rw [h5]
        simp
      | succ w =>
        simp only [List.length_cons]
        have h5 : t.length + 1 - (t.length + (w + 1)) = 0 := by omega
        rw [h5]
        simp

theorem sum_rev_take (l : List ℕ) (m : ℕ) :
    (l.reverse.take m).sum = (l.drop (l.length - m)).sum := by
  have h1 : (l.reverse.take m).sum + (l.reverse.drop m).sum = l.sum := by
    rw [← List.sum_append, List.take_append_drop, List.sum_reverse]
  have h2 : (l.take (l.length - m)).sum + (l.drop (l.length - m)).sum = l.sum := by
    rw [← List.sum_append, List.take_append_drop]
  have h3 := reverse_drop_sum l m
  omega

theorem firstIdxGE_none_iff (rank : ℕ) (l : List ℕ) (hr : 1 ≤ rank) :
    firstIdxGE rank l = none ↔ l.sum < rank := by
  induction l generalizing rank with
  | nil =>
    simp [firstIdxGE]
    omega
  | cons b t ih =>
    simp only [firstIdxGE]
    by_cases hb : rank ≤ b
    · rw [if_pos hb]
      simp only [List.sum_cons]
      constructor
      · intro h
        exact (Option.some_ne_none _ h).elim
      · intro h
        exact absurd h (by omega)
    · rw [if_neg hb]
      rw [Option.map_eq_none', ih (rank - b) (by omega)]
      simp only [List.sum_cons]
      omega

theorem firstIdxGE_some_iff (rank : ℕ) (l : List ℕ) (i : ℕ) (hr : 1 ≤ rank) :
    firstIdxGE rank l = some i ↔
      i < l.length ∧ rank ≤ (l.take (i + 1)).sum ∧
        ∀ j < i, (l.take (j + 1)).sum < rank := by
  induction l generalizing rank i with
  | nil => simp [firstIdxGE]
  | cons b t ih =>
    simp only [firstIdxGE]
    by_cases hb : rank ≤ b
    · rw [if_pos hb]
      constructor
      · intro h
        have hi : i = 0 := (Option.some.inj h).symm
        subst hi
        refine ⟨by simp, by simpa using hb, by omega⟩
      · rintro ⟨hi, hle, hmin⟩
        have hz : i = 0 := by
          by_contra hne
          have h0 := hmin 0 (by omega)
          simp at h0
          omega
        subst hz
        rfl
    · rw [if_neg hb]
      constructor
      · intro h
        rcases Option.map_eq_some'.mp h with ⟨i', hi', rfl⟩
        obtain ⟨h1, h2, h3⟩ := (ih (rank - b) i' (by omega)).mp hi'
        refine ⟨by simpa using h1, ?_, ?_⟩
        · simp only [List.take_succ_cons, List.sum_cons]
          omega
        · intro j hj
          cases j with
          | zero =>
            simp only [Nat.zero_add, List.take_succ_cons, List.take_zero,
              List.sum_cons, List.sum_nil]
            omega
          | succ j' =>
            have := h3 j' (by omega)
            simp only [List.take_succ_cons, List.sum_cons]
            omega
      · rintro ⟨hi, hle, hmin⟩
        cases i with
        | zero =>
          exfalso
          simp at hle
          omega
        | succ i' =>
          have h1 : i' < t.length := by simpa using hi
          have h2 : rank - b ≤ (t.take (i' + 1)).sum := by
            simp only [List.take_succ_cons, List.sum_cons] at hle
            omega
          have h3 : ∀ j < i', (t.take (j + 1)).sum < rank - b := by
            intro j hj
            have := hmin (j + 1) (by omega)
            simp only [List.take_succ_cons, List.sum_cons] at this
            omega
          rw [(ih (rank - b) i' (by omega)).mpr ⟨h1, h2, h3⟩]
          rfl

theorem cumCount_nonpos (d : RDigest) (k : ℤ) (hk : k ≤ 0) :
    cumCount d k = (d.neg.drop (-k).toNat).sum := by
  unfold cumCount
  by_cases h : k < 0
  · rw [if_pos h]
  · have h0 : k = 0 := by omega
    subst h0
    rw [if_neg (by omega)]
    simp

theorem rank_ge_one (q : ℝ) (m : ℕ) (hq0 : 0 ≤ q) : 1 ≤ ⌊1 + q * (m : ℝ)⌋₊ := by
  apply Nat.le_floor
  have h := mul_nonneg hq0 (Nat.cast_nonneg m : (0 : ℝ) ≤ (m : ℝ))
  push_cast
  linarith

theorem rank_le_count (q : ℝ) (n : ℕ) (hq0 : 0 ≤ q) (hq1 : q < 1) (hn : 1 ≤ n) :
    ⌊1 + q * ((n - 1 : ℕ) : ℝ)⌋₊ ≤ n := by
  have h0 : (0 : ℝ) ≤ 1 + q * ((n - 1 : ℕ) : ℝ) := by
    have h := mul_nonneg hq0 (Nat.cast_nonneg (n - 1) : (0 : ℝ) ≤ ((n - 1 : ℕ) : ℝ))
    linarith
  rcases Nat.eq_or_lt_of_le hn with h1 | h1
  · rw [← h1]
    norm_num
  · have hc : ((n - 1 : ℕ) : ℝ) = (n : ℝ) - 1 := by
      push_cast [hn]
      ring
    have hn1 : (1 : ℝ) < (n : ℝ) := by exact_mod_cast h1
    have hlt : 1 + q * ((n - 1 : ℕ) : ℝ) < (n : ℝ) := by
      rw [hc]
      nlinarith
    have := (Nat.floor_lt h0).mpr hlt
    omega

/-- Shared core of C1 and C2: for interior `q` on a digest satisfying the
count invariant, `Quantile` returns the decoded representative of the least
key whose cumulative bucket count reaches the target rank. -/
theorem quantile_scan (d : RDigest) (q : ℝ) (hq0 : 0 < q) (hq1 : q < 1)
    (hinv1 : d.numNeg = d.neg.sum) (hinv2 : d.numPos = d.pos.sum)
    (hc : 0 < d.Count) :
    ∃ k : ℤ,
      IsLeast {k : ℤ | ⌊1 + q * ((d.Count - 1 : ℕ) : ℝ)⌋₊ ≤ cumCount d k} k ∧
      d.Quantile q = some (d.quantile k) := by
  set rank := ⌊1 + q * ((d.Count - 1 : ℕ) : ℝ)⌋₊ with hrank
  have hr1 : 1 ≤ rank := rank_ge_one q _ (le_of_lt hq0)
  have hrn : rank ≤ d.Count := rank_le_count q _ (le_of_lt hq0) hq1 hc
  have hg1 : ¬ (q < 0 ∨ 1 < q) := by
    push_neg
    constructor <;> linarith
  have hg2 : ¬ (d.Count = 0) := by omega
  have hg3 : ¬ (q = 0) := ne_of_gt hq0
  have hg4 : ¬ (q = 1) := ne_of_lt hq1
  have hcount : d.Count = d.numNeg + d.numPos := rfl
  by_cases hcase : rank ≤ d.numNeg
  · have hsum : rank ≤ d.neg.reverse.sum := by
      rw [List.sum_reverse]
      omega
    obtain ⟨j, hj⟩ : ∃ j, firstIdxGE rank d.neg.reverse = some j := by
      cases hfj : firstIdxGE rank d.neg.reverse with
      | none =>
        have := (firstIdxGE_none_iff rank _ hr1).mp hfj
        omega
      | some j => exact ⟨j, rfl⟩
    obtain ⟨hjlen, hjge, hjmin⟩ := (firstIdxGE_some_iff rank _ j hr1).mp hj
    rw [List.length_reverse] at hjlen
    rw [sum_rev_take] at hjge
    set i := d.neg.length - 1 - j with hidef
    have hij : d.neg.length - (j + 1) = i := by omega
    rw [hij] at hjge
    have hrir : rankIndexRev rank d.neg = i := by
      unfold rankIndexRev
      rw [hj]
    refine ⟨-(i : ℤ), ⟨?_, ?_⟩, ?_⟩
    · rw [Set.mem_setOf_eq, cumCount_nonpos _ _ (by omega)]
      rw [show (- -(i : ℤ)).toNat = i by omega]
      exact hjge
    · intro k' hk'
      rw [Set.mem_setOf_eq] at hk'
      by_contra hlt
      push_neg at hlt
      have hk'neg : k' ≤ 0 := by omega
      rw [cumCount_nonpos _ _ hk'neg] at hk'
      set m := (-k').toNat with hm
      have hmi : i + 1 ≤ m := by omega
      rcases Nat.lt_or_ge m d.neg.length with hmlen | hmlen
      · have hj' : d.neg.length - m - 1 < j := by omega
        have hjm := hjmin (d.neg.length - m - 1) hj'
        rw [sum_rev_take] at hjm
        have hidx : d.neg.length - (d.neg.length - m - 1 + 1) = m := by omega
        rw [hidx] at hjm
        omega
      · have hz : (d.neg.drop m).sum = 0 := by
          rw [List.drop_eq_nil_of_le (by omega)]
          rfl
        omega
    · simp only [RDigest.Quantile, if_neg hg1, if_neg hg2, if_neg hg3, if_neg hg4]
      rw [← hrank, if_pos hcase, hrir]
  · have hsub : 1 ≤ rank - d.numNeg := by omega
    have hsum : rank - d.numNeg ≤ d.pos.sum := by omega
    obtain ⟨i, hi⟩ : ∃ i, firstIdxGE (rank - d.numNeg) d.pos = some i := by
      cases hfi : firstIdxGE (rank - d.numNeg) d.pos with
      | none =>
        have := (firstIdxGE_none_iff _ _ hsub).mp hfi
        omega
      | some i => exact ⟨i, rfl⟩
    obtain ⟨hilen, hige, himin⟩ := (firstIdxGE_some_iff _ _ i hsub).mp hi
    have hri : rankIndex (rank - d.numNeg) d.pos = i := by
      unfold rankIndex
      rw [hi]
      rfl
    refine ⟨(i : ℤ) + 1, ⟨?_, ?_⟩, ?_⟩
    · rw [Set.mem_setOf_eq]
      unfold cumCount
      rw [if_neg (by omega)]
      rw [show ((i : ℤ) + 1).toNat = i + 1 by omega]
      omega
    · intro k' hk'
      rw [Set.mem_setOf_eq] at hk'
      by_contra hlt
      push_neg at hlt
      rcases le_or_lt k' 0 with hk0 | hk0
      · rw [cumCount_nonpos _ _ hk0] at hk'
        have := drop_sum_le d.neg (-k').toNat
        omega
      · have hk1 : 1 ≤ k' := hk0
        rw [cumCount] at hk'
        rw [if_neg (by omega)] at hk'
        have hj' : k'.toNat - 1 < i := by omega
        have him := himin (k'.toNat - 1) hj'
        rw [show k'.toNat - 1 + 1 = k'.toNat by omega] at him
        omega
    · simp only [RDigest.Quantile, if_neg hg1, if_neg hg2, if_neg hg3, if_neg hg4]
      rw [← hrank, if_neg hcase, hri]

/-! ## The bucket-key / representative analysis -/

theorem gamma_formula (α : ℝ) (h1 : α < 1) :
    1 + 2 * α / (1 - α) = (1 + α) / (1 - α) := by
  have hne : (1 : ℝ) - α ≠ 0 := ne_of_gt (by linarith)
  field_simp
  ring

theorem gamma_gt_one (α : ℝ) (h0 : 0 < α) (h1 : α < 1) :
    1 < 1 + 2 * α / (1 - α) := by
  have : 0 < 2 * α / (1 - α) := div_pos (by linarith) (by linarith)
  linarith

theorem exp_mul_log (γ : ℝ) (hγ : 0 < γ) (k : ℤ) :
    Real.exp ((k : ℝ) * Real.log γ) = γ ^ k := by
  rw [mul_comm, ← Real.rpow_def_of_pos hγ, Real.rpow_intCast]

theorem key_bounds (γ : ℝ) (hγ : 1 < γ) (v : ℝ) (hv : 0 < v) :
    γ ^ (keyOf (Real.log γ) v - 1) < v ∧ v ≤ γ ^ keyOf (Real.log γ) v := by
  have hγ0 : (0 : ℝ) < γ := by linarith
  have hlg : 0 < Real.log γ := Real.log_pos hγ
  have h1 : Real.log v / Real.log γ ≤ (keyOf (Real.log γ) v : ℝ) := Int.le_ceil _
  have h2 : ((keyOf (Real.log γ) v : ℝ)) - 1 < Real.log v / Real.log γ := by
    have h := Int.ceil_lt_add_one (Real.log v / Real.log γ)
    have : (keyOf (Real.log γ) v : ℝ) < Real.log v / Real.log γ + 1 := by
      exact_mod_cast h
    linarith
  constructor
  · have h3 : ((keyOf (Real.log γ) v - 1 : ℤ) : ℝ) * Real.log γ < Real.log v := by
      have h4 := (lt_div_iff₀ hlg).mp (by push_cast; linarith : 
        ((keyOf (Real.log γ) v - 1 : ℤ) : ℝ) < Real.log v / Real.log γ)
      exact h4
    calc γ ^ (keyOf (Real.log γ) v - 1)
        = Real.exp (((keyOf (Real.log γ) v - 1 : ℤ) : ℝ) * Real.log γ) :=
          (exp_mul_log γ hγ0 _).symm
      _ < Real.exp (Real.log v) := Real.exp_lt_exp.mpr h3
      _ = v := Real.exp_log hv
  · have h3 : Real.log v ≤ ((keyOf (Real.log γ) v : ℤ) : ℝ) * Real.log γ := by
      have h4 := (div_le_iff₀ hlg).mp h1
      exact h4
    calc v = Real.exp (Real.log v) := (Real.exp_log hv).symm
      _ ≤ Real.exp (((keyOf (Real.log γ) v : ℤ) : ℝ) * Real.log γ) :=
          Real.exp_le_exp.mpr h3
      _ = γ ^ keyOf (Real.log γ) v := exp_mul_log γ hγ0 _

theorem rep_close (α γ : ℝ) (h0 : 0 < α) (h1 : α < 1)
    (hγ : γ = (1 + α) / (1 - α)) (v : ℝ) (hv : 0 < v) :
    |2 * γ ^ keyOf (Real.log γ) v / (γ + 1) - v| ≤ α * v := by
  have hsub : (0 : ℝ) < 1 - α := by linarith
  have hγ1 : 1 < γ := by
    rw [hγ, lt_div_iff₀ hsub]
    linarith
  have hγ0 : (0 : ℝ) < γ := by linarith
  obtain ⟨hlow, hhigh⟩ := key_bounds γ hγ1 v hv
  set k := keyOf (Real.log γ) v with hk
  have hzk : (0 : ℝ) < γ ^ k := zpow_pos hγ0 k
  have hzk1 : (0 : ℝ) < γ ^ (k - 1) := zpow_pos hγ0 (k - 1)
  have hplus : (0 : ℝ) < γ + 1 := by linarith
  have hsplit : γ ^ k = γ ^ (k - 1) * γ := by
    rw [← zpow_add_one₀ (ne_of_gt hγ0)]
    norm_num
  have hup : 2 * γ ^ k / (γ + 1) ≤ (1 + α) * v := by
    have e1 : 2 * γ ^ k / (γ + 1) = (1 + α) * γ ^ (k - 1) := by
      rw [hsplit, hγ]
      field_simp
      ring
    rw [e1]
    nlinarith
  have hdown : (1 - α) * v ≤ 2 * γ ^ k / (γ + 1) := by
    have e2 : 2 * γ ^ k / (γ + 1) = (1 - α) * γ ^ k := by
      rw [hγ]
      field_simp
      ring
    rw [e2]
    nlinarith
  rw [abs_le]
  constructor <;> nlinarith

/-! ## Folding `Add` over a list of values -/

theorem addList_nil (d : RDigest) : d.addList [] = d := rfl

theorem addList_cons (d : RDigest) (x : ℝ) (xs : List ℝ) :
    d.addList (x :: xs) = ((d.Add x).getD d).addList xs := rfl

theorem addList_spec (d : RDigest) (xs : List ℝ)
    (hxs : ∀ x ∈ xs, 0 < x ∧ x < maxFloat64) :
    (d.addList xs).alpha = d.alpha ∧
    (d.addList xs).gamma = d.gamma ∧
    (d.addList xs).gammaLn = d.gammaLn ∧
    (∀ k : ℤ, cumCount (d.addList xs) k =
      cumCount d k + countKeyLe d.gammaLn k xs) ∧
    (d.addList xs).neg.sum = d.neg.sum + countKeyLe d.gammaLn 0 xs ∧
    (d.addList xs).pos.sum = d.pos.sum + countKeyGt d.gammaLn xs ∧
    (d.addList xs).numNeg = d.numNeg + countKeyLe d.gammaLn 0 xs ∧
    (d.addList xs).numPos = d.numPos + countKeyGt d.gammaLn xs ∧
    (d.addList xs).min = minFold d.min xs ∧
    (d.addList xs).max = maxFold d.max xs := by
  induction xs generalizing d with
  | nil => simp [RDigest.addList, countKeyLe, countKeyGt, minFold, maxFold]
  | cons x t ih =>
    obtain ⟨hx0, hx1⟩ := hxs x (by simp)
    obtain ⟨d', hd', halpha, hgamma, hgammaLn, hmin, hmax, hsum, hc, hkey,
      hcum, hnegsum, hpossum, hnumNeg, hnumPos⟩ := add_eq_some d x hx0 hx1
    simp only [RDigest.bucketKey] at hcum hnegsum hpossum hnumNeg hnumPos
    have hstep : d.addList (x :: t) = d'.addList t := by
      rw [addList_cons, hd']
      rfl
    obtain ⟨ia, ig, igl, icum, insum, ipsum, inn, inp, imin, imax⟩ :=
      ih d' (fun y hy => hxs y (by simp [hy]))
    rw [hstep]
    have hite1 : (if keyOf d.gammaLn x < 1 then (1 : ℕ) else 0) =
        (if keyOf d.gammaLn x ≤ 0 then 1 else 0) := by
      by_cases h : keyOf d.gammaLn x ≤ 0
      · rw [if_pos (by omega), if_pos h]
      · rw [if_neg (by omega), if_neg h]
    have hite2 : (if keyOf d.gammaLn x < 1 then (0 : ℕ) else 1) =
        (if 0 < keyOf d.gammaLn x then 1 else 0) := by
      by_cases h : 0 < keyOf d.gammaLn x
      · rw [if_neg (by omega), if_pos h]
      · rw [if_pos (by omega), if_neg h]
    refine ⟨?_, ?_, ?_, ?_, ?_, ?_, ?_, ?_, ?_, ?_⟩
    · rw [ia, halpha]
    · rw [ig, hgamma]
    · rw [igl, hgammaLn]
    · intro k
      rw [icum k, hgammaLn, hcum k]
      simp only [countKeyLe]
      omega
    · rw [insum, hgammaLn, hnegsum, hite1]
      simp only [countKeyLe]
      omega
    · rw [ipsum, hgammaLn, hpossum, hite2]
      simp only [countKeyGt]
      omega
    · rw [inn, hgammaLn, hnumNeg, hite1]
      simp only [countKeyLe]
      omega
    · rw [inp, hgammaLn, hnumPos, hite2]
      simp only [countKeyGt]
      omega
    · rw [imin]
      simp only [minFold, List.foldl_cons]
      congr 1
      rw [hmin]
      rcases lt_or_ge (x : WithTop ℝ) d.min with hc2 | hc2
      · rw [if_pos hc2, min_eq_right (le_of_lt hc2)]
      · rw [if_neg (not_lt.mpr hc2), min_eq_left hc2]
    · rw [imax]
      simp only [maxFold, List.foldl_cons]
      congr 1
      rw [hmax]
      rcases lt_or_ge d.max (x : WithBot ℝ) with hc2 | hc2
      · rw [if_pos hc2, max_eq_right (le_of_lt hc2)]
      · rw [if_neg (not_lt.mpr hc2), max_eq_left hc2]

/-! ## Claim C6: merge error behavior -/

/-- C6: `Merge` returns an error exactly when the two digests' relative
errors differ, and on error the receiver is returned unchanged.  The
argument digest is never modified: the model computes a pure function of
`v`, mirroring that the Go code only reads `v`. -/
theorem C6_merge_error_iff (d v : RDigest) :
    ((d.Merge v).2 ≠ none ↔ v.alpha ≠ d.alpha) ∧
      ((d.Merge v).2 ≠ none → (d.Merge v).1 = d) := by
  by_cases h : v.alpha = d.alpha
  · have hok := merge_ok d v h
    constructor
    · rw [hok.1]
      simp [h]
    · intro hne
      exact absurd hok.1 hne
  · have herr := merge_error d v h
    constructor
    · exact iff_of_true herr.2 h
    · intro _
      exact herr.1

/-- Witness for C6: merging a 1/3-error digest into a 1/2-error digest
errors out and leaves the receiver unchanged. -/
theorem C6_merge_error_iff_witness :
    ((RDigest.NewDigest (1 / 2)).Merge (RDigest.NewDigest (1 / 3))).2 ≠ none ∧
      ((RDigest.NewDigest (1 / 2)).Merge (RDigest.NewDigest (1 / 3))).1 =
        RDigest.NewDigest (1 / 2) := by
  have h := C6_merge_error_iff (RDigest.NewDigest (1 / 2)) (RDigest.NewDigest (1 / 3))
  have hne : (RDigest.NewDigest (1 / 3 : ℝ)).alpha ≠
      (RDigest.NewDigest (1 / 2 : ℝ)).alpha := by
    simp only [RDigest.NewDigest]
    norm_num
  exact ⟨h.1.mpr hne, h.2 (h.1.mpr hne)⟩

/-! ## Claim C9: Add -/

/-- C9: `Add(v)` fails (Go: panics) exactly when `v ≤ 0` or
`v ≥ math.MaxFloat64` (the `NaN` disjunct has no counterpart in the real
model), in which case no digest is produced (state unchanged); for valid
`v` it updates `min`/`max`, performs the compensated-summation step
`y = v − c; t = sum + y; c = (t − sum) − y; sum = t`, increments exactly
the counter of bucket `⌈ln v / ln γ⌉`, and increments the total count. -/
theorem C9_add_spec (d : RDigest) (v : ℝ) :
    (d.Add v = none ↔ v ≤ 0 ∨ maxFloat64 ≤ v) ∧
    (0 < v → v < maxFloat64 → ∃ d', d.Add v = some d' ∧
      d'.min = (if (v : WithTop ℝ) < d.min then (v : WithTop ℝ) else d.min) ∧
      d'.max = (if (v : WithBot ℝ) > d.max then (v : WithBot ℝ) else d.max) ∧
      d'.sum = d.sum + (v - d.c) ∧
      d'.c = (d.sum + (v - d.c) - d.sum) - (v - d.c) ∧
      (∀ k : ℤ, keyCount d' k = keyCount d k +
        if k = ⌈Real.log v / d.gammaLn⌉ then 1 else 0) ∧
      d'.Count = d.Count + 1) := by
  refine ⟨add_none_iff d v, ?_⟩
  intro h0 h1
  obtain ⟨d', hd', _, _, _, hmin, hmax, hsum, hc, hkey, _, _, _, hnn, hnp⟩ :=
    add_eq_some d v h0 h1
  refine ⟨d', hd', hmin, hmax, hsum, hc, ?_, ?_⟩
  · intro k
    have := hkey k
    simpa only [RDigest.bucketKey, keyOf] using this
  · simp only [RDigest.Count, hnn, hnp]
    by_cases hb : d.bucketKey v < 1
    · rw [if_pos hb, if_pos hb]
      omega
    · rw [if_neg hb, if_neg hb]
      omega

/-- Witness for C9: adding `1` to a fresh 1/2-error digest succeeds. -/
theorem C9_add_spec_witness :
    ∃ d', (RDigest.NewDigest (1 / 2)).Add 1 = some d' := by
  have h := (C9_add_spec (RDigest.NewDigest (1 / 2)) 1).2 (by norm_num)
    (by rw [maxFloat64]; norm_num)
  obtain ⟨d', hd', _⟩ := h
  exact ⟨d', hd'⟩

/-! ## Claim C4: merge success path -/

/-- C4: for digests with equal relative errors, `Merge` succeeds: the
receiver's `min`/`max` become the element-wise min/max, `sum` absorbs
`v.sum` as a single addend via the compensated-summation step, every bucket
counter is incremented by the corresponding counter of `v` (arrays growing
as needed), and the count becomes the sum of both counts.  `v` itself is
untouched (the model is a pure function of it). -/
theorem C4_merge_fields (d v : RDigest) (h : v.alpha = d.alpha) :
    (d.Merge v).2 = none ∧
      (d.Merge v).1.min = min d.min v.min ∧
      (d.Merge v).1.max = max d.max v.max ∧
      (d.Merge v).1.sum = d.sum + (v.sum - d.c) ∧
      (d.Merge v).1.c = (d.sum + (v.sum - d.c) - d.sum) - (v.sum - d.c) ∧
      (d.Merge v).1.neg.length = max d.neg.length v.neg.length ∧
      (d.Merge v).1.pos.length = max d.pos.length v.pos.length ∧
      (∀ i, (d.Merge v).1.neg.getD i 0 = d.neg.getD i 0 + v.neg.getD i 0) ∧
      (∀ i, (d.Merge v).1.pos.getD i 0 = d.pos.getD i 0 + v.pos.getD i 0) ∧
      (d.Merge v).1.Count = d.Count + v.Count := by
  obtain ⟨h1, _, _, _, h5, h6, h7, h8, h9, h10, h11, h12, _, _, h15, h16⟩ :=
    merge_ok d v h
  refine ⟨h1, h5, h6, h7, h8, h9, h10, h11, h12, ?_⟩
  simp only [RDigest.Count, h15, h16]
  omega

/-- Witness for C4: merging two fresh 1/2-error digests succeeds. -/
theorem C4_merge_fields_witness :
    ((RDigest.NewDigest (1 / 2)).Merge (RDigest.NewDigest (1 / 2))).2 = none :=
  (C4_merge_fields _ _ rfl).1

/-! ## Claim C8: count invariant -/

/-- C8 (amended): every digest reachable from `NewDigest` by successful
`Add` and `Merge` calls satisfies `numNeg = Σ neg`, `numPos = Σ pos`, hence
`Count() = Σ` over all bucket counters.  (`UnmarshalBinary` is excluded: the
decoder copies `numNeg`/`numPos` from the buffer without validating them
against the bucket sums — see the counterexample.) -/
theorem C8_count_invariant (d : RDigest) (h : Reachable d) :
    d.numNeg = d.neg.sum ∧ d.numPos = d.pos.sum ∧
      d.Count = d.neg.sum + d.pos.sum := by
  induction h with
  | new err h0 h1 => simp [RDigest.NewDigest, RDigest.Count]
  | add d v d' hr hadd ih =>
    have hv : ¬ (v ≤ 0 ∨ maxFloat64 ≤ v) := by
      intro hcon
      rw [(add_none_iff d v).mpr hcon] at hadd
      exact Option.noConfusion hadd
    push_neg at hv
    obtain ⟨d'', hd'', _, _, _, _, _, _, _, _, _, hnegsum, hpossum, hnn, hnp⟩ :=
      add_eq_some d v hv.1 hv.2
    rw [hadd] at hd''
    obtain rfl : d' = d'' := Option.some.inj hd''
    obtain ⟨ih1, ih2, _⟩ := ih
    refine ⟨?_, ?_, ?_⟩ <;> simp only [RDigest.Count, hnegsum, hpossum, hnn, hnp] <;>
      omega
  | merge d v hrd hrv hok ihd ihv =>
    have halpha : v.alpha = d.alpha := by
      by_contra hne
      exact (merge_error d v hne).2 hok
    obtain ⟨_, _, _, _, _, _, _, _, _, _, _, _, hns, hps, hnn, hnp⟩ :=
      merge_ok d v halpha
    obtain ⟨i1, i2, _⟩ := ihd
    obtain ⟨j1, j2, _⟩ := ihv
    refine ⟨?_, ?_, ?_⟩ <;> simp only [RDigest.Count, hns, hps, hnn, hnp] <;> omega

/-- Witness for C8 at the freshly constructed digest. -/
theorem C8_count_invariant_witness :
    (RDigest.NewDigest (1 / 2)).Count =
      (RDigest.NewDigest (1 / 2)).neg.sum + (RDigest.NewDigest (1 / 2)).pos.sum :=
  (C8_count_invariant _ (Reachable.new (1 / 2) (by norm_num) (by norm_num))).2.2

/-! ## Running minimum / maximum of the added values -/

theorem minFold_acc_eq (xs : List ℝ) : ∀ a : WithTop ℝ,
    minFold a xs = min a (minFold ⊤ xs) := by
  induction xs with
  | nil =>
    intro a
    simp [minFold]
  | cons x t ih =>
    intro a
    have hcons : ∀ b : WithTop ℝ, minFold b (x :: t) = minFold (min b (x : ℝ)) t :=
      fun b => rfl
    rw [hcons a, hcons ⊤, ih (min a (x : ℝ)), ih (min ⊤ (x : ℝ)),
      min_eq_right (le_top : ((x : ℝ) : WithTop ℝ) ≤ ⊤), min_assoc]

theorem maxFold_acc_eq (xs : List ℝ) : ∀ a : WithBot ℝ,
    maxFold a xs = max a (maxFold ⊥ xs) := by
  induction xs with
  | nil =>
    intro a
    simp [maxFold]
  | cons x t ih =>
    intro a
    have hcons : ∀ b : WithBot ℝ, maxFold b (x :: t) = maxFold (max b (x : ℝ)) t :=
      fun b => rfl
    rw [hcons a, hcons ⊥, ih (max a (x : ℝ)), ih (max ⊥ (x : ℝ)),
      max_eq_right (bot_le : ⊥ ≤ ((x : ℝ) : WithBot ℝ)), max_assoc]

theorem minFold_spec (xs : List ℝ) (hne : xs ≠ []) :
    ∃ m : ℝ, minFold ⊤ xs = (m : ℝ) ∧ m ∈ xs ∧ ∀ x ∈ xs, m ≤ x := by
  induction xs with
  | nil => exact absurd rfl hne
  | cons x t ih =>
    have hstep : minFold ⊤ (x :: t) = min ((x : ℝ) : WithTop ℝ) (minFold ⊤ t) := by
      have h1 : minFold ⊤ (x :: t) = minFold (min ⊤ (x : ℝ)) t := rfl
      rw [h1, minFold_acc_eq t (min ⊤ (x : ℝ)),
        min_eq_right (le_top : ((x : ℝ) : WithTop ℝ) ≤ ⊤)]
    by_cases ht : t = []
    · subst ht
      refine ⟨x, ?_, by simp, ?_⟩
      · rw [hstep]
        simp [minFold]
      · intro z hz
        simp at hz
        rw [hz]
    · obtain ⟨m, hm, hmem, hle⟩ := ih ht
      rw [hstep, hm, ← WithTop.coe_min]
      rcases le_total x m with hxm | hxm
      · refine ⟨x, by rw [min_eq_left hxm], by simp, ?_⟩
        intro z hz
        rcases List.mem_cons.mp hz with rfl | hz'
        · exact le_refl _
        · exact le_trans hxm (hle z hz')
      · refine ⟨m, by rw [min_eq_right hxm], by simp [hmem], ?_⟩
        intro z hz
        rcases List.mem_cons.mp hz with rfl | hz'
        · exact hxm
        · exact hle z hz'

theorem maxFold_spec (xs : List ℝ) (hne : xs ≠ []) :
    ∃ m : ℝ, maxFold ⊥ xs = (m : ℝ) ∧ m ∈ xs ∧ ∀ x ∈ xs, x ≤ m := by
  induction xs with
  | nil => exact absurd rfl hne
  | cons x t ih =>
    have hstep : maxFold ⊥ (x :: t) = max ((x : ℝ) : WithBot ℝ) (maxFold ⊥ t) := by
      have h1 : maxFold ⊥ (x :: t) = maxFold (max ⊥ (x : ℝ)) t := rfl
      rw [h1, maxFold_acc_eq t (max ⊥ (x : ℝ)),
        max_eq_right (bot_le : ⊥ ≤ ((x : ℝ) : WithBot ℝ))]
    by_cases ht : t = []
    · subst ht
      refine ⟨x, ?_, by simp, ?_⟩
      · rw [hstep]
        simp [maxFold]
      · intro z hz
        simp at hz
        rw [hz]
    · obtain ⟨m, hm, hmem, hle⟩ := ih ht
      rw [hstep, hm, ← WithBot.coe_max]
      rcases le_total x m with hxm | hxm
      · refine ⟨m, by rw [max_eq_right hxm], by simp [hmem], ?_⟩
        intro z hz
        rcases List.mem_cons.mp hz with rfl | hz'
        · exact hxm
        · exact hle z hz'
      · refine ⟨x, by rw [max_eq_left hxm], by simp, ?_⟩
        intro z hz
        rcases List.mem_cons.mp hz with rfl | hz'
        · exact le_refl _
        · exact le_trans (hle z hz') hxm

theorem countLe_add_Gt (g : ℝ) (xs : List ℝ) :
    countKeyLe g 0 xs + countKeyGt g xs = xs.length := by
  induction xs with
  | nil => simp [countKeyLe, countKeyGt]
  | cons x t ih =>
    simp only [countKeyLe, countKeyGt, List.length_cons]
    by_cases h : keyOf g x ≤ 0
    · rw [if_pos h, if_neg (by omega)]
      omega
    · rw [if_neg h, if_pos (by omega)]
      omega

/-! ## Claim C3: exact extremes -/

/-- C3: after adding a nonempty list of valid values to a fresh digest,
`Quantile(0)` returns exactly the minimum of the added values and
`Quantile(1)` exactly the maximum — straight from the exactly-tracked
`min`/`max` fields, not reconstructed from a bucket. -/
theorem C3_exact_extremes (err : ℝ) (h0 : 0 < err) (h1 : err < 1) (xs : List ℝ)
    (hne : xs ≠ []) (hxs : ∀ x ∈ xs, 0 < x ∧ x < maxFloat64) :
    ∃ m M : ℝ,
      ((RDigest.NewDigest err).addList xs).Quantile 0 = some m ∧
      m ∈ xs ∧ (∀ x ∈ xs, m ≤ x) ∧
      ((RDigest.NewDigest err).addList xs).Quantile 1 = some M ∧
      M ∈ xs ∧ (∀ x ∈ xs, x ≤ M) := by
  obtain ⟨_, _, _, _, _, _, hnn, hnp, hminf, hmaxf⟩ :=
    addList_spec (RDigest.NewDigest err) xs hxs
  have hcount : ((RDigest.NewDigest err).addList xs).Count = xs.length := by
    have hgt := countLe_add_Gt (RDigest.NewDigest err).gammaLn xs
    simp only [RDigest.Count, hnn, hnp, RDigest.NewDigest] at *
    omega
  have hc0 : ¬ (((RDigest.NewDigest err).addList xs).Count = 0) := by
    rw [hcount]
    intro hcon
    exact hne (List.length_eq_zero.mp hcon)
  obtain ⟨m, hm, hmmem, hmle⟩ := minFold_spec xs hne
  obtain ⟨M, hM, hMmem, hMle⟩ := maxFold_spec xs hne
  have hdmin : ((RDigest.NewDigest err).addList xs).min = (m : ℝ) := by
    rw [hminf]
    exact hm
  have hdmax : ((RDigest.NewDigest err).addList xs).max = (M : ℝ) := by
    rw [hmaxf]
    exact hM
  refine ⟨m, M, ?_, hmmem, hmle, ?_, hMmem, hMle⟩
  · simp only [RDigest.Quantile]
    rw [if_neg (by norm_num), if_neg hc0, if_pos trivial, hdmin]
    simp [topToReal]
  · simp only [RDigest.Quantile]
    rw [if_neg (by norm_num), if_neg hc0, if_neg (by norm_num : ¬ (1 : ℝ) = 0),
      if_pos trivial, hdmax]
    simp [botToReal]

/-- Witness for C3 with `err = 1/2` and the single value `1`. -/
theorem C3_exact_extremes_witness :
    ∃ m M : ℝ,
      ((RDigest.NewDigest (1 / 2)).addList [1]).Quantile 0 = some m ∧
      m ∈ [(1 : ℝ)] ∧ (∀ x ∈ [(1 : ℝ)], m ≤ x) ∧
      ((RDigest.NewDigest (1 / 2)).addList [1]).Quantile 1 = some M ∧
      M ∈ [(1 : ℝ)] ∧ (∀ x ∈ [(1 : ℝ)], x ≤ M) := by
  refine C3_exact_extremes (1 / 2) (by norm_num) (by norm_num) [1] (by simp) ?_
  intro x hx
  simp at hx
  subst hx
  refine ⟨by norm_num, ?_⟩
  rw [maxFloat64]
  norm_num

/-! ## Counting values by bucket key; the order-statistic lemma -/

theorem countKeyLe_append (g : ℝ) (k : ℤ) (a b : List ℝ) :
    countKeyLe g k (a ++ b) = countKeyLe g k a + countKeyLe g k b := by
  induction a with
  | nil => simp [countKeyLe]
  | cons x t ih =>
    rw [List.cons_append]
    simp only [countKeyLe]
    rw [ih]
    omega

theorem countKeyLe_le_length (g : ℝ) (k : ℤ) (l : List ℝ) :
    countKeyLe g k l ≤ l.length := by
  induction l with
  | nil => simp [countKeyLe]
  | cons x t ih =>
    simp only [countKeyLe, List.length_cons]
    by_cases h : keyOf g x ≤ k
    · rw [if_pos h]
      omega
    · rw [if_neg h]
      omega

theorem countKeyLe_eq_length (g : ℝ) (k : ℤ) (l : List ℝ)
    (h : ∀ x ∈ l, keyOf g x ≤ k) : countKeyLe g k l = l.length := by
  induction l with
  | nil => simp [countKeyLe]
  | cons x t ih =>
    simp only [countKeyLe, List.length_cons]
    rw [if_pos (h x (by simp)), ih (fun y hy => h y (by simp [hy]))]
    omega

theorem countKeyLe_eq_zero (g : ℝ) (k : ℤ) (l : List ℝ)
    (h : ∀ x ∈ l, ¬ (keyOf g x ≤ k)) : countKeyLe g k l = 0 := by
  induction l with
  | nil => simp [countKeyLe]
  | cons x t ih =>
    simp only [countKeyLe]
    rw [if_neg (h x (by simp)), ih (fun y hy => h y (by simp [hy]))]

theorem countKeyLe_perm (g : ℝ) (k : ℤ) {xs ys : List ℝ} (h : xs.Perm ys) :
    countKeyLe g k xs = countKeyLe g k ys := by
  induction h with
  | nil => rfl
  | cons x _ ih => simp [countKeyLe, ih]
  | swap x y t =>
    simp only [countKeyLe]
    omega
  | trans _ _ ih1 ih2 => rw [ih1, ih2]

theorem keyOf_mono (g : ℝ) (hg : 0 < g) {x y : ℝ} (hx : 0 < x) (hxy : x ≤ y) :
    keyOf g x ≤ keyOf g y := by
  unfold keyOf
  exact Int.ceil_mono ((div_le_div_iff_of_pos_right hg).mpr (Real.log_le_log hx hxy))

theorem sortedOf_perm (xs : List ℝ) : (sortedOf xs).Perm xs := by
  unfold sortedOf
  have h := Multiset.sort_eq (α := ℝ) (fun a b => a ≤ b) (xs : Multiset ℝ)
  exact Multiset.coe_eq_coe.mp h

theorem sortedOf_sorted (xs : List ℝ) : (sortedOf xs).Sorted (· ≤ ·) := by
  unfold sortedOf
  exact Multiset.sort_sorted _ _

theorem sortedOf_length (xs : List ℝ) : (sortedOf xs).length = xs.length :=
  (sortedOf_perm xs).length_eq

/-- The order-statistic lemma: on a sorted list of positive values, the least
key whose cumulative key-count reaches rank `r` is the key of the element at
(1-indexed) rank `r`. -/
theorem countKeyLe_least (g : ℝ) (hg : 0 < g) (ys : List ℝ)
    (hs : ys.Sorted (· ≤ ·)) (hpos : ∀ x ∈ ys, 0 < x)
    (r : ℕ) (hr1 : 1 ≤ r) (hrn : r ≤ ys.length) :
    IsLeast {k : ℤ | r ≤ countKeyLe g k ys} (keyOf g (ys.getD (r - 1) 0)) := by
  have hlt : r - 1 < ys.length := by omega
  have hgetd : ys.getD (r - 1) 0 = ys[r - 1] := List.getD_eq_getElem ys 0 hlt
  set t := ys.getD (r - 1) 0 with h365
  have htpos : 0 < t := by
    rw [hgetd] at h365 ⊢
    exact hpos _ (List.getElem_mem hlt)
  have hdropcons : ys.drop (r - 1) = t :: ys.drop r := by
    rw [hgetd, List.drop_eq_getElem_cons hlt]
    have hr' : r - 1 + 1 = r := by omega
    rw [hr']
  have hsplit : ys = ys.take (r - 1) ++ ys.drop (r - 1) :=
    (List.take_append_drop (r - 1) ys).symm
  have hpair : ∀ x ∈ ys.take (r - 1), ∀ y ∈ ys.drop (r - 1), x ≤ y := by
    have hs2 := hs
    rw [hsplit] at hs2
    exact (List.pairwise_append.mp hs2).2.2
  have hdropsorted : (ys.drop (r - 1)).Sorted (· ≤ ·) := by
    have hs2 := hs
    rw [hsplit] at hs2
    exact (List.pairwise_append.mp hs2).2.1
  have htails : ∀ y ∈ ys.drop (r - 1), t ≤ y := by
    intro y hy
    rw [hdropcons] at hy
    rcases List.mem_cons.mp hy with rfl | hy'
    · exact le_refl _
    · rw [hdropcons] at hdropsorted
      exact (List.sorted_cons.mp hdropsorted).1 y hy'
  have htakelen : (ys.take (r - 1)).length = r - 1 := by
    rw [List.length_take]
    omega
  constructor
  · -- membership: r ≤ countKeyLe g (keyOf g t) ys
    rw [Set.mem_setOf_eq]
    have hcount : countKeyLe g (keyOf g t) ys =
        countKeyLe g (keyOf g t) (ys.take (r - 1)) +
          countKeyLe g (keyOf g t) (ys.drop (r - 1)) := by
      conv_lhs => rw [hsplit]
      exact countKeyLe_append _ _ _ _
    have htake : countKeyLe g (keyOf g t) (ys.take (r - 1)) = r - 1 := by
      rw [countKeyLe_eq_length _ _ _ ?_, htakelen]
      intro x hx
      have hxy := hpair x hx t (by rw [hdropcons]; simp)
      have hx0 : 0 < x := hpos x (List.mem_of_mem_take hx)
      exact keyOf_mono g hg hx0 hxy
    have hdrop : 1 ≤ countKeyLe g (keyOf g t) (ys.drop (r - 1)) := by
      rw [hdropcons]
      simp only [countKeyLe]
      rw [if_pos (le_refl _)]
      omega
    omega
  · -- lower bound
    intro k hk
    rw [Set.mem_setOf_eq] at hk
    by_contra hlt2
    push_neg at hlt2
    have hcount : countKeyLe g k ys =
        countKeyLe g k (ys.take (r - 1)) + countKeyLe g k (ys.drop (r - 1)) := by
      conv_lhs => rw [hsplit]
      exact countKeyLe_append _ _ _ _
    have htake : countKeyLe g k (ys.take (r - 1)) ≤ r - 1 := by
      have := countKeyLe_le_length g k (ys.take (r - 1))
      omega
    have hdrop : countKeyLe g k (ys.drop (r - 1)) = 0 := by
      apply countKeyLe_eq_zero
      intro y hy
      have hty := htails y hy
      have hky : keyOf g t ≤ keyOf g y := keyOf_mono g hg htpos hty
      omega
    omega

theorem cumCount_new (err : ℝ) (k : ℤ) : cumCount (RDigest.NewDigest err) k = 0 := by
  unfold cumCount RDigest.NewDigest
  split <;> simp

/-! ## Claim C2: the interior quantile computation -/

/-- C2: for a non-empty digest whose per-side totals agree with its bucket
arrays (the data-model invariant) and whose `gamma`/`gammaLn` are consistent
(as every constructed digest's are), `Quantile(q)` for interior `q` computes
the rank `⌊1 + q·(Count−1)⌋`, locates the smallest bucket key whose
cumulative count (negative keys scanned from the far end, then positive
keys from the front — `cumCount` is exactly that cumulative count) reaches
the rank, and returns `2·γᵏ/(γ+1)` for that key `k`. -/
theorem C2_quantile_rank (d : RDigest) (q : ℝ) (hq0 : 0 < q) (hq1 : q < 1)
    (hinv1 : d.numNeg = d.neg.sum) (hinv2 : d.numPos = d.pos.sum)
    (hγ : 0 < d.gamma) (hgl : d.gammaLn = Real.log d.gamma)
    (hc : 0 < d.Count) :
    ∃ k : ℤ,
      IsLeast {k : ℤ | ⌊1 + q * ((d.Count - 1 : ℕ) : ℝ)⌋₊ ≤ cumCount d k} k ∧
      d.Quantile q = some (2 * d.gamma ^ k / (d.gamma + 1)) := by
  obtain ⟨k, hleast, hval⟩ := quantile_scan d q hq0 hq1 hinv1 hinv2 hc
  refine ⟨k, hleast, ?_⟩
  rw [hval]
  congr 1
  simp only [RDigest.quantile, hgl]
  rw [exp_mul_log d.gamma hγ k]

/-- Witness for C2 on a concrete one-value digest. -/
theorem C2_quantile_rank_witness :
    ∃ k : ℤ,
      IsLeast {k : ℤ |
        ⌊1 + (1 / 2 : ℝ) * ((dWitness.Count - 1 : ℕ) : ℝ)⌋₊ ≤ cumCount dWitness k} k ∧
      dWitness.Quantile (1 / 2) =
        some (2 * dWitness.gamma ^ k / (dWitness.gamma + 1)) :=
  C2_quantile_rank dWitness (1 / 2) (by norm_num) (by norm_num) rfl rfl
    (by norm_num [dWitness]) rfl (by norm_num [RDigest.Count, dWitness])

/-! ## Claim C1: the relative-error bound -/

/-- C1: for any digest built with `NewDigest err` (`err ∈ (0,1)`), any
nonempty sequence of values in `(0, MaxFloat64)` added via `Add`, and any
interior `q`, the value `Quantile(q)` returns is within relative error
`err` of the true `q`-quantile of the added values (the rank-`⌊1+q(n−1)⌋`
order statistic, the code's own rank convention).  Over the real-number
model the bound holds exactly — the ~1e-9 floating-point slack of the claim
is not needed. -/
theorem C1_error_bound (err : ℝ) (h0 : 0 < err) (h1 : err < 1) (xs : List ℝ)
    (hne : xs ≠ []) (hxs : ∀ x ∈ xs, 0 < x ∧ x < maxFloat64)
    (q : ℝ) (hq0 : 0 < q) (hq1 : q < 1) :
    ∃ y : ℝ, ((RDigest.NewDigest err).addList xs).Quantile q = some y ∧
      |y - trueQuantile q xs| ≤ err * trueQuantile q xs := by
  obtain ⟨halpha, hgamma, hgl, hcum, hnegsum, hpossum, hnn, hnp, _, _⟩ :=
    addList_spec (RDigest.NewDigest err) xs hxs
  set d := (RDigest.NewDigest err).addList xs with hd
  set γ := 1 + 2 * err / (1 - err) with hγdef
  have hγformula : γ = (1 + err) / (1 - err) := gamma_formula err h1
  have hγ1 : 1 < γ := gamma_gt_one err h0 h1
  have hγ0 : (0 : ℝ) < γ := by linarith
  set g := Real.log γ with hgdef
  have hg : 0 < g := Real.log_pos hγ1
  have hglnew : (RDigest.NewDigest err).gammaLn = g := rfl
  have hgnew : (RDigest.NewDigest err).gamma = γ := rfl
  have hinv1 : d.numNeg = d.neg.sum := by
    rw [hnn, hnegsum]
    rfl
  have hinv2 : d.numPos = d.pos.sum := by
    rw [hnp, hpossum]
    rfl
  have hlen1 : 1 ≤ xs.length := List.length_pos.mpr hne
  have hcount : d.Count = xs.length := by
    have hgt := countLe_add_Gt (RDigest.NewDigest err).gammaLn xs
    simp only [RDigest.Count, hnn, hnp, RDigest.NewDigest] at *
    omega
  have hc : 0 < d.Count := by omega
  have hcum2 : ∀ k : ℤ, cumCount d k = countKeyLe g k xs := by
    intro k
    rw [hcum k, cumCount_new, hglnew]
    omega
  set rank := ⌊1 + q * ((d.Count - 1 : ℕ) : ℝ)⌋₊ with hrank
  have hrank2 : rank = ⌊1 + q * ((xs.length - 1 : ℕ) : ℝ)⌋₊ := by
    rw [hrank, hcount]
  have hr1 : 1 ≤ rank := rank_ge_one q _ (le_of_lt hq0)
  have hrn : rank ≤ xs.length := by
    rw [hrank2]
    exact rank_le_count q xs.length (le_of_lt hq0) hq1 hlen1
  obtain ⟨k, hleast, hval⟩ := quantile_scan d q hq0 hq1 hinv1 hinv2 hc
  have hperm := sortedOf_perm xs
  have hsorted := sortedOf_sorted xs
  have hpos' : ∀ x ∈ sortedOf xs, 0 < x := fun x hx =>
    (hxs x (hperm.mem_iff.mp hx)).1
  have hlistlen : (sortedOf xs).length = xs.length := sortedOf_length xs
  have hleast2 : IsLeast {k : ℤ | rank ≤ countKeyLe g k (sortedOf xs)}
      (keyOf g ((sortedOf xs).getD (rank - 1) 0)) :=
    countKeyLe_least g hg (sortedOf xs) hsorted hpos' rank hr1 (by omega)
  have hseteq : {k : ℤ | rank ≤ cumCount d k} =
      {k : ℤ | rank ≤ countKeyLe g k (sortedOf xs)} := by
    ext k2
    rw [Set.mem_setOf_eq, Set.mem_setOf_eq, hcum2 k2,
      ← countKeyLe_perm g k2 hperm]
  have hkeq : k = keyOf g ((sortedOf xs).getD (rank - 1) 0) := by
    refine IsLeast.unique ?_ hleast2
    exact hseteq ▸ hleast
  have htq : trueQuantile q xs = (sortedOf xs).getD (rank - 1) 0 := by
    unfold trueQuantile
    rw [← hrank2]
  set t := (sortedOf xs).getD (rank - 1) 0 with ht
  have htmem : t ∈ xs := by
    have hlt : rank - 1 < (sortedOf xs).length := by omega
    rw [ht, List.getD_eq_getElem _ _ hlt]
    exact hperm.mem_iff.mp (List.getElem_mem hlt)
  have ht0 : 0 < t := (hxs t htmem).1
  refine ⟨d.quantile k, hval, ?_⟩
  rw [htq, hkeq]
  have hquant : d.quantile (keyOf g t) = 2 * γ ^ keyOf g t / (γ + 1) := by
    simp only [RDigest.quantile]
    rw [hgamma, hgl, hgnew, hglnew]
    rw [exp_mul_log γ hγ0]
  rw [hquant]
  exact rep_close err γ h0 h1 hγformula t ht0

/-- Witness for C1 with `err = 1/2`, values `[1]`, `q = 1/2`. -/
theorem C1_error_bound_witness :
    ∃ y : ℝ, ((RDigest.NewDigest (1 / 2)).addList [1]).Quantile (1 / 2) = some y ∧
      |y - trueQuantile (1 / 2) [1]| ≤ (1 / 2) * trueQuantile (1 / 2) [1] := by
  refine C1_error_bound (1 / 2) (by norm_num) (by norm_num) [1] (by simp) ?_
    (1 / 2) (by norm_num) (by norm_num)
  intro x hx
  simp at hx
  subst hx
  refine ⟨by norm_num, ?_⟩
  rw [maxFloat64]
  norm_num

/-! ## Byte-level lemmas for the binary codec -/

theorem bytesLE_length (k n : ℕ) : (bytesLE k n).length = k := by
  induction k generalizing n with
  | zero => rfl
  | succ k ih => simp [bytesLE, ih]

theorem readLE_cons_succ (b : ℕ) (t : List ℕ) (k i : ℕ) :
    readLE (b :: t) k (i + 1) = readLE t k i := by
  induction k generalizing i with
  | zero => rfl
  | succ k ih =>
    simp only [readLE, List.getD_cons_succ]
    rw [ih (i + 1)]

theorem readLE_append_right (a b : List ℕ) (k : ℕ) : ∀ i,
    readLE (a ++ b) k (a.length + i) = readLE b k i := by
  induction a with
  | nil => intro i; simp
  | cons x t ih =>
    intro i
    have h1 : (x :: t).length + i = (t.length + i) + 1 := by
      simp only [List.length_cons]
      omega
    rw [h1, List.cons_append, readLE_cons_succ, ih i]

theorem mod_split (n m : ℕ) (hm : 0 < m) :
    n % (256 * m) = n % 256 + 256 * (n / 256 % m) := by
  have hB : n / 256 % m < m := Nat.mod_lt _ hm
  have hr : n % 256 < 256 := Nat.mod_lt _ (by norm_num)
  have hX : 256 * (n / 256 % m) + n % 256 < 256 * m := by
    have h2 : n / 256 % m + 1 ≤ m := hB
    calc 256 * (n / 256 % m) + n % 256 < 256 * (n / 256 % m) + 256 := by omega
      _ = 256 * (n / 256 % m + 1) := by ring
      _ ≤ 256 * m := Nat.mul_le_mul_left _ h2
  have hdecomp : n = 256 * m * (n / 256 / m) + (256 * (n / 256 % m) + n % 256) := by
    have e1 : n = 256 * (n / 256) + n % 256 := (Nat.div_add_mod n 256).symm
    have e2 : n / 256 = m * (n / 256 / m) + n / 256 % m := (Nat.div_add_mod _ m).symm
    calc n = 256 * (n / 256) + n % 256 := e1
      _ = 256 * (m * (n / 256 / m) + n / 256 % m) + n % 256 := by rw [← e2]
      _ = 256 * m * (n / 256 / m) + (256 * (n / 256 % m) + n % 256) := by ring
  conv_lhs => rw [hdecomp]
  rw [Nat.add_comm (256 * m * (n / 256 / m)), Nat.mul_comm (256 * m),
    Nat.add_mul_mod_self_right, Nat.mod_eq_of_lt hX]
  omega

theorem readLE_bytesLE (k : ℕ) : ∀ (n : ℕ) (rest : List ℕ),
    readLE (bytesLE k n ++ rest) k 0 = n % 256 ^ k := by
  induction k with
  | zero =>
    intro n rest
    simp [readLE, Nat.mod_one]
  | succ k ih =>
    intro n rest
    simp only [bytesLE, List.cons_append, readLE, List.getD_cons_zero]
    rw [readLE_cons_succ _ _ _ 0, ih (n / 256) rest, pow_succ',
      mod_split n (256 ^ k) (pow_pos (by norm_num) k)]
    omega

theorem u64le_length (n : ℕ) : (u64le n).length = 8 := bytesLE_length 8 n

theorem u32le_length (n : ℕ) : (u32le n).length = 4 := bytesLE_length 4 n

theorem readU64_here (n : ℕ) (rest : List ℕ) :
    readU64 (u64le n ++ rest) 0 = n % 2 ^ 64 := by
  unfold readU64 u64le
  rw [readLE_bytesLE]
  norm_num

theorem readU32_here (n : ℕ) (rest : List ℕ) :
    readU32 (u32le n ++ rest) 0 = n % 2 ^ 32 := by
  unfold readU32 u32le
  rw [readLE_bytesLE]
  norm_num

theorem readLE_shift (a b : List ℕ) (k i j : ℕ) (h : j = a.length + i) :
    readLE (a ++ b) k j = readLE b k i := by
  subst h
  exact readLE_append_right a b k i

theorem flatten_map_u64le_length (L : List ℕ) :
    ((L.map u64le).flatten).length = 8 * L.length := by
  induction L with
  | nil => simp
  | cons x t ih =>
    simp only [List.map_cons, List.flatten_cons, List.length_append, ih,
      u64le_length, List.length_cons]
    ring

theorem read_flatten (L : List ℕ) : ∀ (rest : List ℕ) (j : ℕ), j < L.length →
    readU64 ((L.map u64le).flatten ++ rest) (8 * j) = L.getD j 0 % 2 ^ 64 := by
  induction L with
  | nil =>
    intro rest j hj
    simp at hj
  | cons x t ih =>
    intro rest j hj
    cases j with
    | zero =>
      simp only [List.map_cons, List.flatten_cons, Nat.mul_zero,
        List.append_assoc, List.getD_cons_zero]
      exact readU64_here _ _
    | succ j =>
      have h8 : 8 * (j + 1) = 8 + 8 * j := by ring
      simp only [List.map_cons, List.flatten_cons, List.append_assoc, h8,
        List.getD_cons_succ]
      show readLE (u64le x ++ ((t.map u64le).flatten ++ rest)) 8 (8 + 8 * j) = _
      rw [readLE_shift (u64le x) _ 8 (8 * j) _ (by rw [u64le_length])]
      exact ih rest j (by simpa using hj)

theorem marshal_length (d : SDigest) :
    d.MarshalBinary.length = 64 + 8 * d.neg.length + 8 * d.pos.length := by
  simp only [SDigest.MarshalBinary, List.length_append, u64le_length,
    u32le_length, flatten_map_u64le_length]

theorem marshal_hm (d : SDigest) :
    d.MarshalBinary = u64le d.alpha ++ (u64le d.min ++ (u64le d.max ++
      (u64le d.sum ++ (u64le d.c ++ (u64le d.numNeg ++ (u64le d.numPos ++
      (u32le (d.neg.length % 2 ^ 32) ++ (u32le (d.pos.length % 2 ^ 32) ++
      ((d.neg.map u64le).flatten ++ (d.pos.map u64le).flatten))))))))) := by
  simp [SDigest.MarshalBinary, List.append_assoc]

theorem marshal_read (d : SDigest) :
    readU64 d.MarshalBinary 0 = d.alpha % 2 ^ 64 ∧
    readU64 d.MarshalBinary 8 = d.min % 2 ^ 64 ∧
    readU64 d.MarshalBinary 16 = d.max % 2 ^ 64 ∧
    readU64 d.MarshalBinary 24 = d.sum % 2 ^ 64 ∧
    readU64 d.MarshalBinary 32 = d.c % 2 ^ 64 ∧
    readU64 d.MarshalBinary 40 = d.numNeg % 2 ^ 64 ∧
    readU64 d.MarshalBinary 48 = d.numPos % 2 ^ 64 ∧
    readU32 d.MarshalBinary 56 = d.neg.length % 2 ^ 32 ∧
    readU32 d.MarshalBinary 60 = d.pos.length % 2 ^ 32 := by
  refine ⟨?_, ?_, ?_, ?_, ?_, ?_, ?_, ?_, ?_⟩ <;> rw [marshal_hm d]
  · exact readU64_here _ _
  · show readLE _ 8 8 = _
    rw [readLE_shift (u64le d.alpha) _ 8 0 8 (by simp [u64le_length])]
    show readU64 _ 0 = _
    exact readU64_here _ _
  · show readLE _ 8 16 = _
    rw [readLE_shift (u64le d.alpha) _ 8 8 16 (by simp [u64le_length]),
      readLE_shift (u64le d.min) _ 8 0 8 (by simp [u64le_length])]
    show readU64 _ 0 = _
    exact readU64_here _ _
  · show readLE _ 8 24 = _
    rw [readLE_shift (u64le d.alpha) _ 8 16 24 (by simp [u64le_length]),
      readLE_shift (u64le d.min) _ 8 8 16 (by simp [u64le_length]),
      readLE_shift (u64le d.max) _ 8 0 8 (by simp [u64le_length])]
    show readU64 _ 0 = _
    exact readU64_here _ _
  · show readLE _ 8 32 = _
    rw [readLE_shift (u64le d.alpha) _ 8 24 32 (by simp [u64le_length]),
      readLE_shift (u64le d.min) _ 8 16 24 (by simp [u64le_length]),
      readLE_shift (u64le d.max) _ 8 8 16 (by simp [u64le_length]),
      readLE_shift (u64le d.sum) _ 8 0 8 (by simp [u64le_length])]
    show readU64 _ 0 = _
    exact readU64_here _ _
  · show readLE _ 8 40 = _
    rw [readLE_shift (u64le d.alpha) _ 8 32 40 (by simp [u64le_length]),
      readLE_shift (u64le d.min) _ 8 24 32 (by simp [u64le_length]),
      readLE_shift (u64le d.max) _ 8 16 24 (by simp [u64le_length]),
      readLE_shift (u64le d.sum) _ 8 8 16 (by simp [u64le_length]),
      readLE_shift (u64le d.c) _ 8 0 8 (by simp [u64le_length])]
    show readU64 _ 0 = _
    exact readU64_here _ _
  · show readLE _ 8 48 = _
    rw [readLE_shift (u64le d.alpha) _ 8 40 48 (by simp [u64le_length]),
      readLE_shift (u64le d.min) _ 8 32 40 (by simp [u64le_length]),
      readLE_shift (u64le d.max) _ 8 24 32 (by simp [u64le_length]),
      readLE_shift (u64le d.sum) _ 8 16 24 (by simp [u64le_length]),
      readLE_shift (u64le d.c) _ 8 8 16 (by simp [u64le_length]),
      readLE_shift (u64le d.numNeg) _ 8 0 8 (by simp [u64le_length])]
    show readU64 _ 0 = _
    exact readU64_here _ _
  · show readLE _ 4 56 = _
    rw [readLE_shift (u64le d.alpha) _ 4 48 56 (by simp [u64le_length]),
      readLE_shift (u64le d.min) _ 4 40 48 (by simp [u64le_length]),
      readLE_shift (u64le d.max) _ 4 32 40 (by simp [u64le_length]),
      readLE_shift (u64le d.sum) _ 4 24 32 (by simp [u64le_length]),
      readLE_shift (u64le d.c) _ 4 16 24 (by simp [u64le_length]),
      readLE_shift (u64le d.numNeg) _ 4 8 16 (by simp [u64le_length]),
      readLE_shift (u64le d.numPos) _ 4 0 8 (by simp [u64le_length])]
    show readU32 _ 0 = _
    rw [readU32_here]
    omega
  · show readLE _ 4 60 = _
    rw [readLE_shift (u64le d.alpha) _ 4 52 60 (by simp [u64le_length]),
      readLE_shift (u64le d.min) _ 4 44 52 (by simp [u64le_length]),
      readLE_shift (u64le d.max) _ 4 36 44 (by simp [u64le_length]),
      readLE_shift (u64le d.sum) _ 4 28 36 (by simp [u64le_length]),
      readLE_shift (u64le d.c) _ 4 20 28 (by simp [u64le_length]),
      readLE_shift (u64le d.numNeg) _ 4 12 20 (by simp [u64le_length]),
      readLE_shift (u64le d.numPos) _ 4 4 12 (by simp [u64le_length]),
      readLE_shift (u32le (d.neg.length % 2 ^ 32)) _ 4 0 4 (by simp [u32le_length])]
    show readU32 _ 0 = _
    rw [readU32_here]
    omega

theorem marshal_read_neg (d : SDigest) (j : ℕ) (hj : j < d.neg.length) :
    readU64 d.MarshalBinary (headerSize + 8 * j) = d.neg.getD j 0 % 2 ^ 64 := by
  rw [marshal_hm d, show headerSize = 64 from rfl]
  show readLE _ 8 (64 + 8 * j) = _
  rw [readLE_shift (u64le d.alpha) _ 8 (56 + 8 * j) (64 + 8 * j)
      (by simp only [u64le_length]; omega),
    readLE_shift (u64le d.min) _ 8 (48 + 8 * j) (56 + 8 * j)
      (by simp only [u64le_length]; omega),
    readLE_shift (u64le d.max) _ 8 (40 + 8 * j) (48 + 8 * j)
      (by simp only [u64le_length]; omega),
    readLE_shift (u64le d.sum) _ 8 (32 + 8 * j) (40 + 8 * j)
      (by simp only [u64le_length]; omega),
    readLE_shift (u64le d.c) _ 8 (24 + 8 * j) (32 + 8 * j)
      (by simp only [u64le_length]; omega),
    readLE_shift (u64le d.numNeg) _ 8 (16 + 8 * j) (24 + 8 * j)
      (by simp only [u64le_length]; omega),
    readLE_shift (u64le d.numPos) _ 8 (8 + 8 * j) (16 + 8 * j)
      (by simp only [u64le_length]; omega),
    readLE_shift (u32le (d.neg.length % 2 ^ 32)) _ 8 (4 + 8 * j) (8 + 8 * j)
      (by simp only [u32le_length]; omega),
    readLE_shift (u32le (d.pos.length % 2 ^ 32)) _ 8 (8 * j) (4 + 8 * j)
      (by simp only [u32le_length])]
  exact read_flatten d.neg _ j hj

theorem marshal_read_pos (d : SDigest) (j : ℕ) (hj : j < d.pos.length) :
    readU64 d.MarshalBinary (headerSize + 8 * d.neg.length + 8 * j) =
      d.pos.getD j 0 % 2 ^ 64 := by
  rw [marshal_hm d, show headerSize = 64 from rfl]
  show readLE _ 8 (64 + 8 * d.neg.length + 8 * j) = _
  rw [readLE_shift (u64le d.alpha) _ 8 (56 + 8 * d.neg.length + 8 * j) _
      (by simp only [u64le_length]; omega),
    readLE_shift (u64le d.min) _ 8 (48 + 8 * d.neg.length + 8 * j) _
      (by simp only [u64le_length]; omega),
    readLE_shift (u64le d.max) _ 8 (40 + 8 * d.neg.length + 8 * j) _
      (by simp only [u64le_length]; omega),
    readLE_shift (u64le d.sum) _ 8 (32 + 8 * d.neg.length + 8 * j) _
      (by simp only [u64le_length]; omega),
    readLE_shift (u64le d.c) _ 8 (24 + 8 * d.neg.length + 8 * j) _
      (by simp only [u64le_length]; omega),
    readLE_shift (u64le d.numNeg) _ 8 (16 + 8 * d.neg.length + 8 * j) _
      (by simp only [u64le_length]; omega),
    readLE_shift (u64le d.numPos) _ 8 (8 + 8 * d.neg.length + 8 * j) _
      (by simp only [u64le_length]; omega),
    readLE_shift (u32le (d.neg.length % 2 ^ 32)) _ 8 (4 + 8 * d.neg.length + 8 * j) _
      (by simp only [u32le_length]; omega),
    readLE_shift (u32le (d.pos.length % 2 ^ 32)) _ 8 (8 * d.neg.length + 8 * j) _
      (by simp only [u32le_length]; omega),
    readLE_shift ((d.neg.map u64le).flatten) _ 8 (8 * j) _
      (by rw [flatten_map_u64le_length]),
    show (d.pos.map u64le).flatten = (d.pos.map u64le).flatten ++ [] from
      (List.append_nil _).symm]
  exact read_flatten d.pos [] j hj

theorem unmarshal_marshal (d : SDigest) (hwf : d.WF)
    (halpha : f64badAlpha d.alpha = false) :
    UnmarshalBinary d.MarshalBinary = Except.ok d := by
  obtain ⟨hwa, hwmin, hwmax, hwsum, hwc, hwnn, hwnp, hwln, hwlp, hwne, hwpe⟩ := hwf
  obtain ⟨h0, h8, h16, h24, h32, h40, h48, h56, h60⟩ := marshal_read d
  have hlen := marshal_length d
  rw [Nat.mod_eq_of_lt hwa] at h0
  rw [Nat.mod_eq_of_lt hwmin] at h8
  rw [Nat.mod_eq_of_lt hwmax] at h16
  rw [Nat.mod_eq_of_lt hwsum] at h24
  rw [Nat.mod_eq_of_lt hwc] at h32
  rw [Nat.mod_eq_of_lt hwnn] at h40
  rw [Nat.mod_eq_of_lt hwnp] at h48
  rw [Nat.mod_eq_of_lt hwln] at h56
  rw [Nat.mod_eq_of_lt hwlp] at h60
  have hchecks : unmarshalChecks d.MarshalBinary =
      Except.ok (d.neg.length, d.pos.length) := by
    simp only [unmarshalChecks, h0, h56, h60, hlen, show headerSize = 64 from rfl]
    rw [if_neg (by omega), if_neg (by simp [halpha]), if_neg (by omega)]
  have hneg : (List.range d.neg.length).map
      (fun j => readU64 d.MarshalBinary (headerSize + 8 * j)) = d.neg := by
    apply List.ext_getElem
    · simp
    · intro j h1 h2
      simp only [List.getElem_map, List.getElem_range]
      rw [marshal_read_neg d j h2, List.getD_eq_getElem _ _ h2,
        Nat.mod_eq_of_lt (hwne _ (List.getElem_mem h2))]
  have hpos : (List.range d.pos.length).map
      (fun j => readU64 d.MarshalBinary (headerSize + 8 * d.neg.length + 8 * j)) =
      d.pos := by
    apply List.ext_getElem
    · simp
    · intro j h1 h2
      simp only [List.getElem_map, List.getElem_range]
      rw [marshal_read_pos d j h2, List.getD_eq_getElem _ _ h2,
        Nat.mod_eq_of_lt (hwpe _ (List.getElem_mem h2))]
  unfold UnmarshalBinary
  rw [hchecks]
  simp only [h0, h8, h16, h24, h32, h40, h48, hneg, hpos]

/-! ## Claim C5: binary round trip -/

/-- C5: decoding the bytes produced by `MarshalBinary` succeeds and yields a
digest with every stored field equal to the original's — equal `alpha` bit
pattern (hence equal recomputed `gamma`/`gammaLn`), `min`, `max`, `sum`,
compensation term, bucket arrays and per-side counts; equality of
`Count`/`Sum`/`Size`/`Quantile` for every `q` follows, all being functions
of these fields.  The decoder never reads its target, so the result is the
same for a freshly constructed or default-initialized target.  Hypotheses:
the fields fit their Go types (`WF`) and the `alpha` bits pass the
decoder's own validity test — true of every digest the library can build. -/
theorem C5_roundtrip (d : SDigest) (hwf : d.WF)
    (halpha : f64badAlpha d.alpha = false) :
    UnmarshalBinary d.MarshalBinary = Except.ok d :=
  unmarshal_marshal d hwf halpha

/-- Witness for C5 on a concrete digest with `alpha = 0.5` bits and one
occupied bucket. -/
theorem C5_roundtrip_witness :
    UnmarshalBinary sWitness.MarshalBinary = Except.ok sWitness :=
  C5_roundtrip sWitness (by constructor <;> decide) (by decide)

/-! ## Claim C7: decoder validation -/

/-- C7 counterexample: a 72-byte buffer whose header declares
`lenNeg = lenPos = 0` but which carries 8 trailing junk bytes decodes
successfully, although the remaining length after the header (8) does not
equal `(lenNeg+lenPos)·8 = 0`: the decoder checks a *minimum* length, not
an exact match. -/
theorem C7_unmarshal_cex :
    (∃ dd, UnmarshalBinary bufExtra = Except.ok dd) ∧
      bufExtra.length - headerSize ≠
        (readU32 bufExtra 56 + readU32 bufExtra 60) * 8 := by
  constructor
  · exact ⟨⟨halfBits, 0, 0, 0, 0, [], [], 0, 0⟩, rfl⟩
  · decide

/-- C7 (amended): `UnmarshalBinary` returns a format error exactly when the
buffer is shorter than the 64-byte header, or the decoded `relativeError`
is NaN or outside `(0,1)`, or the remaining buffer length after the header
is *less than* `(lenNeg+lenPos)·8` — both sides computed in `uint32`
arithmetic (the remaining length truncated mod 2^32, the product reduced
mod 2^32); in particular surplus trailing bytes are accepted.  On error the
target digest is untouched: every error path returns before the single
final assignment, which the model renders by not consuming a target at
all. -/
theorem C7_unmarshal_error_iff (data : List ℕ) :
    (∃ e, UnmarshalBinary data = Except.error e) ↔
      (data.length < headerSize ∨ f64badAlpha (readU64 data 0) = true ∨
        (data.length - headerSize) % 2 ^ 32 <
          (readU32 data 56 + readU32 data 60) * 8 % 2 ^ 32) := by
  simp only [UnmarshalBinary, unmarshalChecks]
  by_cases h1 : data.length < headerSize
  · rw [if_pos h1]
    simp [h1]
  · rw [if_neg h1]
    by_cases h2 : f64badAlpha (readU64 data 0) = true
    · rw [if_pos h2]
      simp [h1, h2]
    · rw [if_neg h2]
      by_cases h3 : (data.length - headerSize) % 2 ^ 32 <
          (readU32 data 56 + readU32 data 60) * 8 % 2 ^ 32
      · rw [if_pos h3]
        simp only [h1, h2]
        simp
        exact h3
      · rw [if_neg h3]
        simp only [h1, h2]
        simp
        exact Nat.le_of_not_lt h3

/-! ## Claim C10: the out-of-bounds decode -/

/-- C10: on `bufOverflow` (header-only buffer declaring `lenNeg = 2^29`),
the decoder's `uint32` length check passes — `(2^29 · 8) mod 2^32 = 0` — yet
reading the declared histograms would need 2^32 bytes the buffer does not
have: the Go loop indexes past the end of the slice and panics, so
`UnmarshalBinary` is not total and its reads are not all guarded. -/
theorem C10_length_check_overflow :
    unmarshalChecks bufOverflow = Except.ok (2 ^ 29, 0) ∧
      ¬ unmarshalInBounds bufOverflow := by
  have hck : unmarshalChecks bufOverflow = Except.ok (2 ^ 29, 0) := rfl
  refine ⟨hck, ?_⟩
  intro h
  have h2 := h (2 ^ 29) 0 hck
  have h3 : bufOverflow.length = 64 := by decide
  rw [h3, show headerSize = 64 from rfl] at h2
  omega

/-- C8 counterexample: decoding a 64-byte buffer with valid `alpha`,
`numNeg = 5` and empty bucket arrays succeeds and produces a digest whose
count (5) differs from its bucket-counter sum (0): the decoder does not
validate `numNeg`/`numPos` against the arrays. -/
theorem C8_count_invariant_cex :
    ∃ dd : SDigest, UnmarshalBinary bufBadCount = Except.ok dd ∧
      dd.numNeg + dd.numPos ≠ dd.neg.sum + dd.pos.sum := by
  refine ⟨⟨halfBits, 0, 0, 0, 0, [], [], 5, 0⟩, ?_, by decide⟩
  rfl
